import Mathlib

/-!
Verification of the core of the `brittle-matter-matters` two-dimensional
discrete-element-method simulator against its natural-language specification.

The C source is shallowly embedded:
* machine integers (`size_t`, signed integers) become `Nat`/`Int`, with
  wrap-around made explicit (`% 2 ^ w`) where the C type could overflow;
* `double` becomes `ℚ` (exact arithmetic; the specification's formulas are
  stated over exact reals, and every claim here is about the formula level,
  not about rounding);
* fixed-capacity C arrays indexed by a live count `n` become total functions
  out of `ℕ` together with the count, and per-cell / per-particle index lists
  become `List ℕ`;
* fallible operations (`bool` return with in-place mutation) become `Option`
  valued state transformers.

Helpers whose defining header is not part of the provided sources
(`fp.h`, `geom2d.h`, `geom.h`, `neigh.h`) are modelled from the
specification; each such definition carries a doc comment starting with
`Modelled from the spec:`.  Everything else is translated from the source.
-/

namespace Bmm

/-! ## Common operations for unsigned integer types (`common_uint.h`)

The unsigned instantiations are used with `A = size_t`.  `bmm_wrap` is
additionally given a word-size-faithful variant in which every arithmetic
operation is performed modulo `2 ^ w`, exactly as a C unsigned type of width
`w` would, so that overflow-safety of the implementation is itself a theorem
rather than an assumption of the embedding. -/

/-- `bmm_quot(x, y)` for unsigned types: quotient and remainder with
`quot * y + rem = x` and `rem ≥ 0` (`common_uint.h`). -/
def bmm_quot_uint (x y : ℕ) : ℕ × ℕ :=
  (x / y, x % y)

/-- Subtraction `u - v` as computed by a C unsigned integer type of width
`w` bits: the mathematical difference modulo `2 ^ w`. -/
def usub (w u v : ℕ) : ℕ :=
  (u + (2 ^ w - v % 2 ^ w)) % 2 ^ w

/-- Addition `u + v` as computed by a C unsigned integer type of width `w`
bits. -/
def uadd (w u v : ℕ) : ℕ :=
  (u + v) % 2 ^ w

/-- `bmm_wrap(x, a, b)` from `common_uint.h`, with the arithmetic of a C
unsigned type of width `w` bits made explicit:
`c = b - a; r = x % c; s = a % c; return (r >= s ? r - s : c - (s - r)) + a`. -/
def bmm_wrap_uint (w x a b : ℕ) : ℕ :=
  let c := usub w b a
  let r := x % c
  let s := a % c
  uadd w (if s ≤ r then usub w r s else usub w c (usub w s r)) a

/-! ## Common operations for signed integer types (`common_sint.h`) -/

/-- Modelled from the spec: `bmm_sgn` lives in a shared comparison header
that is not among the provided sources (`common_ord.h`); it is the standard
three-way sign, the only reading consistent with its uses. -/
def bmm_sgn (x : ℤ) : ℤ :=
  if x < 0 then -1 else if x = 0 then 0 else 1

/-- `bmm_quot(x, y)` for signed types (`common_sint.h`): starting from C's
truncated division `q = x / y`, `r = x % y`, the correction
`s = r >= 0 ? 0 : y < 0 ? -1 : 1` yields `(q - s, r + s * y)` with
`rem ≥ 0`. -/
def bmm_quot_sint (x y : ℤ) : ℤ × ℤ :=
  let q := Int.tdiv x y
  let r := Int.tmod x y
  let s : ℤ := if 0 ≤ r then 0 else if y < 0 then -1 else 1
  (q - s, r + s * y)

/-- The ascending arm of the slow-path loop of the signed `bmm_wrap`:
`do y += c while (y < a)`, entered when `y < a`. -/
def bmm_wrap_up (a c : ℤ) (hc : 0 < c) (y : ℤ) : ℤ :=
  if y < a then bmm_wrap_up a c hc (y + c) else y
termination_by (a - y).toNat
decreasing_by
  omega

/-- The descending arm of the slow-path loop of the signed `bmm_wrap`:
`do y -= c while (y >= b)`, entered when `y ≥ b`. -/
def bmm_wrap_down (b c : ℤ) (hc : 0 < c) (y : ℤ) : ℤ :=
  if b ≤ y then bmm_wrap_down b c hc (y - c) else y
termination_by (y - b + 1).toNat
decreasing_by
  omega

/-- `bmm_wrap(x, a, b)` from `common_sint.h`: when `a` and `b` have the same
sign it reassembles the Euclidean remainders of `x` and `a` modulo
`c = b - a`; otherwise it falls back to the stepping loop (which the C
source performs in a wider `long long` type, so plain `ℤ` is faithful).
The behavior for `b ≤ a` is undefined in the source; the embedding returns
`x` there. -/
def bmm_wrap_sint (x a b : ℤ) : ℤ :=
  if h : a < b then
    if bmm_sgn a = bmm_sgn b then
      let c := b - a
      let xmc := (bmm_quot_sint x c).2
      let amc := (bmm_quot_sint a c).2
      (if amc ≤ xmc then xmc - amc else c - (amc - xmc)) + a
    else
      if x < a then bmm_wrap_up a (b - a) (by omega) x
      else bmm_wrap_down b (b - a) (by omega) x
  else x

/-! ## Hypercuboid index packing (`common_uint.h`, `A = size_t`) -/

/-- The loop body of `bmm_hcd`, processing the extents from the innermost
(last) dimension outwards; the input list is the reversed extent vector and
the output is the reversed index vector. -/
def bmm_hcd_rev (i : ℕ) : List ℕ → List ℕ
  | [] => []
  | n :: rest => (bmm_quot_uint i n).2 :: bmm_hcd_rev (bmm_quot_uint i n).1 rest

/-- `bmm_hcd(pij, i, ndim, nper)` from `common_uint.h`: unpack the flat
index `i` into an index vector over the hypercuboid with per-dimension
extents `nper`, filling `pij[ndim - 1 - idim]` with the remainder of the
running quotient by `nper[ndim - 1 - idim]`. -/
def bmm_hcd (i : ℕ) (nper : List ℕ) : List ℕ :=
  (bmm_hcd_rev i nper.reverse).reverse

/-- `bmm_unhcd(ij, ndim, nper)` from `common_uint.h`: the row-major flat
index of the index vector `ij`, accumulated as `i = i * nper[d] + ij[d]`. -/
def bmm_unhcd (ij nper : List ℕ) : ℕ :=
  (List.zip nper ij).foldl (fun acc p => acc * p.1 + p.2) 0

/-! ## Correctness of `bmm_wrap` (claim C5) -/

theorem usub_eq_of_le (w : ℕ) {u v : ℕ} (hvu : v ≤ u) (hu : u < 2 ^ w) :
    usub w u v = u - v := by
  have hv : v < 2 ^ w := lt_of_le_of_lt hvu hu
  unfold usub
  rw [Nat.mod_eq_of_lt hv]
  have h : u + (2 ^ w - v) = 2 ^ w + (u - v) := by omega
  rw [h, Nat.add_mod_left, Nat.mod_eq_of_lt (by omega)]

theorem bmm_wrap_uint_spec (w x a b : ℕ) (hab : a < b) (hb : b < 2 ^ w)
    (hx : x < 2 ^ w) :
    a ≤ bmm_wrap_uint w x a b ∧ bmm_wrap_uint w x a b < b ∧
      bmm_wrap_uint w x a b % (b - a) = x % (b - a) := by
  have ha : a < 2 ^ w := lt_trans hab hb
  have hcw : b - a < 2 ^ w := by omega
  have hcpos : 0 < b - a := by omega
  unfold bmm_wrap_uint
  rw [usub_eq_of_le w (le_of_lt hab) hb]
  dsimp only
  have hr : x % (b - a) < b - a := Nat.mod_lt _ hcpos
  have hs : a % (b - a) < b - a := Nat.mod_lt _ hcpos
  have hka : (b - a) * (a / (b - a)) + a % (b - a) = a := Nat.div_add_mod a (b - a)
  by_cases hle : a % (b - a) ≤ x % (b - a)
  · rw [if_pos hle]
    rw [usub_eq_of_le w hle (by omega)]
    unfold uadd
    have hlt : x % (b - a) - a % (b - a) + a < 2 ^ w := by omega
    rw [Nat.mod_eq_of_lt hlt]
    refine ⟨by omega, by omega, ?_⟩
    have h1 : x % (b - a) - a % (b - a) + a =
        x % (b - a) + (b - a) * (a / (b - a)) := by omega
    rw [h1, Nat.mul_comm, Nat.add_mul_mod_self_right, Nat.mod_mod_of_dvd]
    exact dvd_refl _
  · rw [if_neg hle]
    have e1 : usub w (a % (b - a)) (x % (b - a)) =
        a % (b - a) - x % (b - a) :=
      usub_eq_of_le w (by omega) (by omega)
    have e2 : usub w (b - a) (a % (b - a) - x % (b - a)) =
        b - a - (a % (b - a) - x % (b - a)) :=
      usub_eq_of_le w (by omega) hcw
    rw [e1, e2]
    unfold uadd
    have hlt : b - a - (a % (b - a) - x % (b - a)) + a < 2 ^ w := by omega
    rw [Nat.mod_eq_of_lt hlt]
    refine ⟨by omega, by omega, ?_⟩
    have h1 : b - a - (a % (b - a) - x % (b - a)) + a =
        x % (b - a) + (b - a) * (a / (b - a) + 1) := by
      have hms : (b - a) * (a / (b - a) + 1) =
          (b - a) * (a / (b - a)) + (b - a) := by ring
      omega
    rw [h1, Nat.mul_comm, Nat.add_mul_mod_self_right, Nat.mod_mod_of_dvd]
    exact dvd_refl _

theorem int_neg_tmod (a b : ℤ) : Int.tmod (-a) b = -Int.tmod a b := by
  rw [Int.tmod_def, Int.tmod_def, Int.neg_tdiv]
  ring

theorem bmm_quot_sint_rem {c : ℤ} (x : ℤ) (hc : 0 < c) :
    0 ≤ (bmm_quot_sint x c).2 ∧ (bmm_quot_sint x c).2 < c ∧
      c ∣ ((bmm_quot_sint x c).2 - x) := by
  unfold bmm_quot_sint
  dsimp only
  have hid : c * Int.tdiv x c + Int.tmod x c = x := Int.tdiv_add_tmod x c
  have hub : Int.tmod x c < c := Int.tmod_lt_of_pos x hc
  have hlb : -c < Int.tmod x c := by
    rcases le_or_lt 0 x with hx | hx
    · have := Int.tmod_nonneg c hx
      omega
    · have h1 : Int.tmod (-x) c < c := Int.tmod_lt_of_pos (-x) hc
      rw [int_neg_tmod] at h1
      omega
  by_cases hr : 0 ≤ Int.tmod x c
  · rw [if_pos hr]
    refine ⟨by simpa using hr, by simpa using hub, ?_⟩
    have h2 : Int.tmod x c + 0 * c - x = c * (-Int.tdiv x c) := by ring_nf; omega
    simp only [h2]
    exact Dvd.intro _ rfl
  · rw [if_neg hr, if_neg (by omega : ¬c < 0)]
    refine ⟨by omega, by omega, ?_⟩
    have h2 : Int.tmod x c + 1 * c - x = c * (1 - Int.tdiv x c) := by ring_nf; omega
    simp only [h2]
    exact Dvd.intro _ rfl

theorem bmm_wrap_up_aux (a c : ℤ) (hc : 0 < c) :
    ∀ (n : ℕ) (y : ℤ), y < a → (a - y).toNat ≤ n →
      a ≤ bmm_wrap_up a c hc y ∧ bmm_wrap_up a c hc y < a + c ∧
        c ∣ (bmm_wrap_up a c hc y - y) := by
  intro n
  induction n with
  | zero => intro y hy hn; omega
  | succ n ih =>
    intro y hy hn
    rw [bmm_wrap_up, if_pos hy]
    by_cases h2 : y + c < a
    · obtain ⟨g1, g2, g3⟩ := ih (y + c) h2 (by omega)
      refine ⟨g1, g2, ?_⟩
      have : bmm_wrap_up a c hc (y + c) - y =
          (bmm_wrap_up a c hc (y + c) - (y + c)) + c := by ring
      rw [this]
      exact dvd_add g3 (dvd_refl c)
    · rw [bmm_wrap_up, if_neg (by omega : ¬y + c < a)]
      exact ⟨by omega, by omega, by simp⟩

theorem bmm_wrap_down_aux (b c : ℤ) (hc : 0 < c) :
    ∀ (n : ℕ) (y : ℤ), b ≤ y → (y - b + 1).toNat ≤ n →
      b - c ≤ bmm_wrap_down b c hc y ∧ bmm_wrap_down b c hc y < b ∧
        c ∣ (bmm_wrap_down b c hc y - y) := by
  intro n
  induction n with
  | zero => intro y hy hn; omega
  | succ n ih =>
    intro y hy hn
    rw [bmm_wrap_down, if_pos hy]
    by_cases h2 : b ≤ y - c
    · obtain ⟨g1, g2, g3⟩ := ih (y - c) h2 (by omega)
      refine ⟨g1, g2, ?_⟩
      have : bmm_wrap_down b c hc (y - c) - y =
          (bmm_wrap_down b c hc (y - c) - (y - c)) + -c := by ring
      rw [this]
      exact dvd_add g3 (dvd_neg.mpr (dvd_refl c))
    · rw [bmm_wrap_down, if_neg h2]
      exact ⟨by omega, by omega, by simp⟩

theorem bmm_wrap_sint_spec (x a b : ℤ) (hab : a < b) :
    a ≤ bmm_wrap_sint x a b ∧ bmm_wrap_sint x a b < b ∧
      (b - a) ∣ (bmm_wrap_sint x a b - x) := by
  have hc : (0 : ℤ) < b - a := by omega
  unfold bmm_wrap_sint
  rw [dif_pos hab]
  by_cases hsgn : bmm_sgn a = bmm_sgn b
  · rw [if_pos hsgn]
    dsimp only
    obtain ⟨hx0, hx1, hx2⟩ := bmm_quot_sint_rem x hc
    obtain ⟨ha0, ha1, ha2⟩ := bmm_quot_sint_rem a hc
    by_cases hle : (bmm_quot_sint a (b - a)).2 ≤ (bmm_quot_sint x (b - a)).2
    · rw [if_pos hle]
      refine ⟨by omega, by omega, ?_⟩
      have h1 : (bmm_quot_sint x (b - a)).2 - (bmm_quot_sint a (b - a)).2 + a - x =
          ((bmm_quot_sint x (b - a)).2 - x) - ((bmm_quot_sint a (b - a)).2 - a) := by
        ring
      rw [h1]
      exact dvd_sub hx2 ha2
    · rw [if_neg hle]
      refine ⟨by omega, by omega, ?_⟩
      have h1 : b - a - ((bmm_quot_sint a (b - a)).2 - (bmm_quot_sint x (b - a)).2)
          + a - x =
          ((bmm_quot_sint x (b - a)).2 - x) - ((bmm_quot_sint a (b - a)).2 - a)
            + (b - a) := by ring
      rw [h1]
      exact dvd_add (dvd_sub hx2 ha2) (dvd_refl _)
  · rw [if_neg hsgn]
    by_cases hxa : x < a
    · obtain ⟨g1, g2, g3⟩ :=
        bmm_wrap_up_aux a (b - a) (by omega) (a - x).toNat x hxa (le_refl _)
      rw [if_pos hxa]
      exact ⟨g1, by omega, g3⟩
    · rw [if_neg hxa]
      by_cases hxb : b ≤ x
      · obtain ⟨g1, g2, g3⟩ :=
          bmm_wrap_down_aux b (b - a) (by omega) (x - b + 1).toNat x hxb (le_refl _)
        exact ⟨by omega, g2, g3⟩
      · rw [bmm_wrap_down, if_neg hxb]
        exact ⟨by omega, by omega, by simp⟩

/-- C5: for every integer `x` and all bounds `a < b`, `bmm_wrap(x, a, b)` lies
in the half-open interval `[a, b)` and is congruent to `x` modulo `b - a`;
this holds for the signed instantiation (over `ℤ`, as the source computes it)
and for the unsigned instantiation with every arithmetic operation performed
modulo `2 ^ w`, so the unsigned computation is overflow-safe. -/
theorem claim_C5_bmm_wrap_range_congruence :
    (∀ x a b : ℤ, a < b →
      a ≤ bmm_wrap_sint x a b ∧ bmm_wrap_sint x a b < b ∧
        (b - a) ∣ (bmm_wrap_sint x a b - x)) ∧
    (∀ w x a b : ℕ, a < b → b < 2 ^ w → x < 2 ^ w →
      a ≤ bmm_wrap_uint w x a b ∧ bmm_wrap_uint w x a b < b ∧
        bmm_wrap_uint w x a b % (b - a) = x % (b - a)) :=
  ⟨bmm_wrap_sint_spec, bmm_wrap_uint_spec⟩

/-- Witness for C5: the theorem applied at concrete inputs, one exercising
the signed fast path (`x = -7`, `a = 2`, `b = 5`), one exercising the
unsigned word-size-8 instantiation (`x = 200`, `a = 30`, `b = 37`). -/
theorem claim_C5_witness :
    ((2 : ℤ) ≤ bmm_wrap_sint (-7) 2 5 ∧ bmm_wrap_sint (-7) 2 5 < 5 ∧
      ((5 : ℤ) - 2) ∣ (bmm_wrap_sint (-7) 2 5 - (-7))) ∧
    (30 ≤ bmm_wrap_uint 8 200 30 37 ∧ bmm_wrap_uint 8 200 30 37 < 37 ∧
      bmm_wrap_uint 8 200 30 37 % (37 - 30) = 200 % (37 - 30)) :=
  ⟨claim_C5_bmm_wrap_range_congruence.1 (-7) 2 5 (by decide),
    claim_C5_bmm_wrap_range_congruence.2 8 200 30 37 (by decide) (by decide)
      (by decide)⟩

/-! ## Round-trip of hypercuboid packing (claim C6) -/

/-- Proof-side companion of `bmm_unhcd` operating on reversed lists, so that
the innermost dimension comes first: a Horner evaluation from the inside
out. -/
def bmm_unhcd_rev : List ℕ → List ℕ → ℕ
  | n :: ns, j :: js => j + n * bmm_unhcd_rev ns js
  | _, _ => 0

theorem bmm_hcd_rev_length (i : ℕ) (rn : List ℕ) :
    (bmm_hcd_rev i rn).length = rn.length := by
  induction rn generalizing i with
  | nil => rfl
  | cons n ns ih => simp [bmm_hcd_rev, ih]

theorem bmm_hcd_length (i : ℕ) (nper : List ℕ) :
    (bmm_hcd i nper).length = nper.length := by
  unfold bmm_hcd
  rw [List.length_reverse, bmm_hcd_rev_length, List.length_reverse]

theorem bmm_unhcd_snoc (ij nper : List ℕ) (j n : ℕ)
    (h : ij.length = nper.length) :
    bmm_unhcd (ij ++ [j]) (nper ++ [n]) = bmm_unhcd ij nper * n + j := by
  unfold bmm_unhcd
  rw [List.zip_append h.symm, List.foldl_append]
  rfl

theorem bmm_unhcd_eq_rev (rn : List ℕ) :
    ∀ rj : List ℕ, rj.length = rn.length →
      bmm_unhcd rj.reverse rn.reverse = bmm_unhcd_rev rn rj := by
  induction rn with
  | nil =>
    intro rj h
    rw [List.length_nil, List.length_eq_zero] at h
    subst h
    rfl
  | cons n ns ih =>
    intro rj h
    match rj with
    | j :: js =>
      simp only [List.length_cons, Nat.succ_inj] at h
      simp only [List.reverse_cons]
      rw [bmm_unhcd_snoc _ _ _ _ (by simpa using h), ih js h]
      show bmm_unhcd_rev ns js * n + j = j + n * bmm_unhcd_rev ns js
      ring

theorem bmm_unhcd_rev_hcd_rev (rn : List ℕ) :
    ∀ i : ℕ, i < rn.prod → bmm_unhcd_rev rn (bmm_hcd_rev i rn) = i := by
  induction rn with
  | nil =>
    intro i hi
    simp only [List.prod_nil, Nat.lt_one_iff] at hi
    simp [hi, bmm_hcd_rev, bmm_unhcd_rev]
  | cons n ns ih =>
    intro i hi
    rw [List.prod_cons] at hi
    have hn : 0 < n := by
      rcases Nat.eq_zero_or_pos n with h0 | h0
      · rw [h0, Nat.zero_mul] at hi; omega
      · exact h0
    show (bmm_quot_uint i n).2 + n * bmm_unhcd_rev ns (bmm_hcd_rev
      (bmm_quot_uint i n).1 ns) = i
    unfold bmm_quot_uint
    have hdiv : i / n < ns.prod := by
      refine (Nat.div_lt_iff_lt_mul hn).mpr ?_
      rw [Nat.mul_comm]
      exact hi
    rw [ih (i / n) hdiv]
    exact Nat.mod_add_div i n

theorem bmm_hcd_rev_unhcd_rev {rn rj : List ℕ}
    (h : List.Forall₂ (· < ·) rj rn) :
    bmm_hcd_rev (bmm_unhcd_rev rn rj) rn = rj := by
  induction h with
  | nil => rfl
  | @cons j n js ns hjn hrest ih =>
    have hn : 0 < n := by omega
    show (bmm_quot_uint (j + n * bmm_unhcd_rev ns js) n).2 ::
      bmm_hcd_rev (bmm_quot_uint (j + n * bmm_unhcd_rev ns js) n).1 ns =
      j :: js
    unfold bmm_quot_uint
    rw [Nat.add_mul_mod_self_left, Nat.mod_eq_of_lt hjn,
      Nat.add_mul_div_left _ _ hn, Nat.div_eq_of_lt hjn, Nat.zero_add, ih]

/-- C6: over any hypercuboid `nper`, unpacking a flat index `i < ∏ nper[d]`
with `bmm_hcd` and repacking with `bmm_unhcd` yields `i` again, and packing
any index vector that is componentwise below `nper` and unpacking yields the
vector again. -/
theorem claim_C6_hcd_unhcd_roundtrip :
    (∀ (nper : List ℕ) (i : ℕ), i < nper.prod →
      bmm_unhcd (bmm_hcd i nper) nper = i) ∧
    (∀ nper ij : List ℕ, List.Forall₂ (· < ·) ij nper →
      bmm_hcd (bmm_unhcd ij nper) nper = ij) := by
  constructor
  · intro nper i hi
    have hlen : (bmm_hcd i nper).length = nper.length := bmm_hcd_length i nper
    have h1 : bmm_unhcd (bmm_hcd i nper) nper =
        bmm_unhcd_rev nper.reverse (bmm_hcd i nper).reverse := by
      have := bmm_unhcd_eq_rev nper.reverse (bmm_hcd i nper).reverse
        (by simpa using hlen)
      simpa using this
    rw [h1]
    unfold bmm_hcd
    rw [List.reverse_reverse]
    exact bmm_unhcd_rev_hcd_rev nper.reverse i (by rwa [List.prod_reverse])
  · intro nper ij h
    have hlen : ij.length = nper.length := h.length_eq
    have h1 : bmm_unhcd ij nper = bmm_unhcd_rev nper.reverse ij.reverse := by
      have := bmm_unhcd_eq_rev nper.reverse ij.reverse (by simpa using hlen)
      simpa using this
    rw [h1]
    unfold bmm_hcd
    rw [bmm_hcd_rev_unhcd_rev (List.forall₂_reverse_iff.mpr h),
      List.reverse_reverse]

/-- Witness for C6: the theorem applied on the hypercuboid `[6, 5]` (the
extents used by the repository's own tests), at the flat index `13` and at
the index vector `[2, 3]`. -/
theorem claim_C6_witness :
    bmm_unhcd (bmm_hcd 13 [6, 5]) [6, 5] = 13 ∧
      bmm_hcd (bmm_unhcd [2, 3] [6, 5]) [6, 5] = [2, 3] :=
  ⟨claim_C6_hcd_unhcd_roundtrip.1 [6, 5] 13 (by decide),
    claim_C6_hcd_unhcd_roundtrip.2 [6, 5] [2, 3]
      (by decide)⟩

/-! ## Scalar and planar geometry helpers

`double` arithmetic is embedded as exact `ℚ` arithmetic.  The helpers of
`fp.h`, `geom.h` and `geom2d.h` are not among the provided sources, so they
are modelled from §4.1 of the specification. -/

/-- Modelled from the spec: `bmm_fp_sq` from the missing header `fp.h`, the
square of a scalar. -/
def bmm_fp_sq (x : ℚ) : ℚ := x * x

/-- Modelled from the spec: `bmm_fp_lerp` from the missing header `fp.h`,
the affine map sending the interval `[x0, x1]` to `[y0, y1]` (linear
interpolation), the only reading consistent with its call sites. -/
def bmm_fp_lerp (x x0 x1 y0 y1 : ℚ) : ℚ :=
  y0 + (x - x0) * (y1 - y0) / (x1 - x0)

/-- Modelled from the spec: `bmm_fp_swrap(x, p)` from the missing header
`fp.h` is the "symmetric wrap into `[-p/2, p/2)` for periodic-image
shortest-difference computation" (§4.1): the representative of `x` modulo
`p` lying in `[-p/2, p/2)`. -/
def bmm_fp_swrap (x p : ℚ) : ℚ :=
  x - p * ⌊x / p + 1 / 2⌋

/-- Modelled from the spec: `bmm_geom_ballprmoi(d)` from the missing header
`geom.h`, the reduced moment of inertia of a uniform `d`-ball; the spec
(§4.2) fixes its value `1/2` at the only dimension it is used at, `d = 2`. -/
def bmm_geom_ballprmoi (ndim : ℕ) : ℚ :=
  if ndim = 2 then 1 / 2 else 0

/-- Modelled from the spec: `bmm_geom2d_diff` from the missing header
`geom2d.h`, the componentwise difference of two planar vectors. -/
def bmm_geom2d_diff (a b : ℚ × ℚ) : ℚ × ℚ :=
  (a.1 - b.1, a.2 - b.2)

/-- Modelled from the spec: `bmm_geom2d_cpdiff` from the missing header
`geom2d.h`, the "periodic shortest-difference" (§4.1): `cpdiff(a, b)`
points from `a` to `b` — §4.3 and §4.5 describe the `θ` computed from
`cpdiff(x_i, x_j)` as `dir(x_j − x_i)`, and the normal-compression-rate
label and the repulsive `−fn·n̂` application require the same
orientation — wrapped symmetrically into one box period in each periodic
dimension. -/
def bmm_geom2d_cpdiff (a b box : ℚ × ℚ) (per : Bool × Bool) : ℚ × ℚ :=
  (if per.1 then bmm_fp_swrap (b.1 - a.1) box.1 else b.1 - a.1,
   if per.2 then bmm_fp_swrap (b.2 - a.2) box.2 else b.2 - a.2)

/-- Modelled from the spec: `bmm_geom2d_norm2` from the missing header
`geom2d.h`, the squared Euclidean norm. -/
def bmm_geom2d_norm2 (a : ℚ × ℚ) : ℚ :=
  a.1 * a.1 + a.2 * a.2

/-- Modelled from the spec: `bmm_geom2d_cpdist2` from the missing header
`geom2d.h`, the squared distance to the nearest periodic image. -/
def bmm_geom2d_cpdist2 (a b box : ℚ × ℚ) (per : Bool × Bool) : ℚ :=
  bmm_geom2d_norm2 (bmm_geom2d_cpdiff a b box per)

/-- Modelled from the spec: `bmm_geom2d_dot` from the missing header
`geom2d.h`, the dot product. -/
def bmm_geom2d_dot (a b : ℚ × ℚ) : ℚ :=
  a.1 * b.1 + a.2 * b.2

/-- Modelled from the spec: `bmm_geom2d_scale` from the missing header
`geom2d.h`, scalar multiplication. -/
def bmm_geom2d_scale (a : ℚ × ℚ) (c : ℚ) : ℚ × ℚ :=
  (c * a.1, c * a.2)

/-- Modelled from the spec: `bmm_geom2d_addto` from the missing header
`geom2d.h`, vector addition (the C version accumulates in place). -/
def bmm_geom2d_addto (a b : ℚ × ℚ) : ℚ × ℚ :=
  (a.1 + b.1, a.2 + b.2)

/-- Modelled from the spec: `bmm_geom2d_rperp` from the missing header
`geom2d.h`, the right-perpendicular (clockwise quarter turn). -/
def bmm_geom2d_rperp (a : ℚ × ℚ) : ℚ × ℚ :=
  (a.2, -a.1)

/-- Embedding of the C library function `copysign`: the magnitude of `x`
with the sign of `y` (`ℚ` has no negative zero, so `y = 0` yields `|x|`). -/
def copysign (x y : ℚ) : ℚ :=
  if y < 0 then -|x| else |x|

/-- Embedding of the C library function `sqrt`.  On `ℚ` an exact square
root only exists for perfect squares; this function is exact there
(`ratSqrt_mul_self`), and every theorem below applies it only at such
points. -/
def ratSqrt (q : ℚ) : ℚ :=
  (Nat.sqrt q.num.toNat : ℚ) / (Nat.sqrt q.den : ℚ)

theorem ratSqrt_mul_self (r : ℚ) (h : 0 ≤ r) : ratSqrt (r * r) = r := by
  unfold ratSqrt
  rw [Rat.mul_self_num, Rat.mul_self_den]
  have h0 : 0 ≤ r.num := Rat.num_nonneg.mpr h
  have hnum : (r.num * r.num).toNat = r.num.toNat * r.num.toNat := by
    obtain ⟨k, hk⟩ := Int.eq_ofNat_of_zero_le h0
    rw [hk, ← Int.natCast_mul, Int.toNat_natCast, Int.toNat_natCast]
  rw [hnum, Nat.sqrt_eq, Nat.sqrt_eq]
  have h2 : ((r.num.toNat : ℕ) : ℚ) = ((r.num : ℤ) : ℚ) := by
    have h3 : ((r.num.toNat : ℕ) : ℤ) = r.num := Int.toNat_of_nonneg h0
    exact_mod_cast congrArg (fun z : ℤ => (z : ℚ)) h3
  rw [h2, Rat.num_div_den]

/-! ## The simulation state (`dem.h`, as used by `dem.c`)

The struct layout follows `struct bmm_dem` as `dem.c` reads and writes it.
The number of spatial dimensions is the compile-time constant
`BMM_NDIM = 2`, so per-dimension arrays become pairs and the per-dimension
loops of the source are unrolled.  Per-particle arrays of capacity
`BMM_MPART` with live count `n` become total functions out of `ℕ`; the cell
and neighbor index lists become `List ℕ`; the per-particle link table
becomes a list of link records (the live prefix of the parallel link
arrays).  The current script stage only enters `dem.c`'s force code through
`opts.script.mode[script.i]` and the current sediment parameter, so the
embedding carries those two values directly. -/

inductive BmmDemRole | free | fixed | driven
deriving DecidableEq

inductive BmmDemFamb | creeping | quad | corr
deriving DecidableEq

inductive BmmDemFnorm | none | dashpot | viscoel
deriving DecidableEq

inductive BmmDemFtang | none | hw | cs
deriving DecidableEq

inductive BmmDemCaching | none | neigh
deriving DecidableEq

inductive BmmDemMode | idle | begin | create | sediment | link | fault | separate | smash | accel | crunch | measure
deriving DecidableEq

structure BmmDemOpts where
  box_x : ℚ × ℚ
  box_per : Bool × Bool
  famb : BmmDemFamb
  fnorm : BmmDemFnorm
  ftang : BmmDemFtang
  caching : BmmDemCaching
  part_y : ℚ
  dashpot_gamma : ℚ
  hw_gamma : ℚ
  hw_mu : ℚ
  cache_ncell : ℕ × ℕ
  cache_rcutoff : ℚ
  script_mode : BmmDemMode
  sediment_kcohes : ℚ

structure BmmDemLink where
  i : ℕ
  rrest : ℚ
  phirest : ℚ × ℚ
  rlim : ℚ
  philim : ℚ
deriving DecidableEq

structure BmmDemPart where
  n : ℕ
  lnew : ℕ
  l : ℕ → ℕ
  role : ℕ → BmmDemRole
  r : ℕ → ℚ
  m : ℕ → ℚ
  jred : ℕ → ℚ
  x : ℕ → ℚ × ℚ
  v : ℕ → ℚ × ℚ
  a : ℕ → ℚ × ℚ
  phi : ℕ → ℚ
  omega : ℕ → ℚ
  alpha : ℕ → ℚ
  f : ℕ → ℚ × ℚ
  tau : ℕ → ℚ

structure BmmDemCache where
  stale : Bool
  j : ℕ → ℚ
  x : ℕ → ℚ × ℚ
  ijcell : ℕ → ℕ × ℕ
  icell : ℕ → ℕ
  part : ℕ → List ℕ
  neigh : ℕ → List ℕ

structure BmmDem where
  opts : BmmDemOpts
  part : BmmDemPart
  link : ℕ → List BmmDemLink
  cache : BmmDemCache

/-! ## Neighbor-cell index of a particle (claim C3) -/

/-- The per-dimension body of `bmm_dem_cache_ijcell` (`dem.c:50-74`): with
`i = ncell - 1`, map the cached coordinate through
`t = lerp(x, 0, box, 1, i)`; positions below the ramp go to cell `0`,
positions at or beyond its top go to cell `i`, and interior positions go to
cell `⌊t⌋` (the C cast of a nonnegative `double` to `size_t`). -/
def bmm_dem_cache_ijcell_dim (boxx : ℚ) (ncell : ℕ) (xc : ℚ) : ℕ :=
  let i := ncell - 1
  let t := bmm_fp_lerp xc 0 boxx 1 (i : ℚ)
  if t < 1 then 0
  else if (i : ℚ) ≤ t then i
  else (⌊t⌋).toNat

/-- `bmm_dem_cache_ijcell` (`dem.c:50-74`): the cell index vector of one
particle, the per-dimension map applied in both dimensions. -/
def bmm_dem_cache_ijcell_vec (dem : BmmDem) (ipart : ℕ) : ℕ × ℕ :=
  (bmm_dem_cache_ijcell_dim dem.opts.box_x.1 dem.opts.cache_ncell.1
      (dem.cache.x ipart).1,
   bmm_dem_cache_ijcell_dim dem.opts.box_x.2 dem.opts.cache_ncell.2
      (dem.cache.x ipart).2)

/-- Counterexample to C3 as stated: in a unit box with `ncell = 5`, the
cached coordinate `0` (which lies in `[0, box)`) is placed in cell `1` by
the code, while the claimed formula `clamp(⌊x·(ncell−1)/box⌋, 0, ncell−1)`
gives cell `0`. -/
theorem claim_C3_counterexample :
    (0 : ℚ) ≤ 0 ∧ (0 : ℚ) < 1 ∧
      bmm_dem_cache_ijcell_dim 1 5 0 ≠
        min (Int.toNat ⌊(0 : ℚ) * (((5 : ℕ) - 1 : ℕ) : ℚ) / 1⌋) ((5 : ℕ) - 1) := by
  refine ⟨le_refl 0, by norm_num, ?_⟩
  norm_num [bmm_dem_cache_ijcell_dim, bmm_fp_lerp]

/-- C3 (amended): for a cached coordinate in `[0, box)` with `box > 0` and
`ncell ≥ 2`, the cell index computed during rebuild equals
`1 + ⌊x·(ncell−2)/box⌋`: interior positions occupy the interior cells
`1 … ncell−2`, and the extremal cells are reserved for positions outside
the box. -/
theorem claim_C3_cache_ijcell_interior (boxx : ℚ) (ncell : ℕ) (xc : ℚ)
    (hbox : 0 < boxx) (hn : 2 ≤ ncell) (hx0 : 0 ≤ xc) (hx1 : xc < boxx) :
    bmm_dem_cache_ijcell_dim boxx ncell xc =
      1 + (⌊xc * ((ncell - 2 : ℕ) : ℚ) / boxx⌋).toNat := by
  have hcast1 : ((ncell - 1 : ℕ) : ℚ) = (ncell : ℚ) - 1 := by
    push_cast [Nat.cast_sub (show 1 ≤ ncell by omega)]
    ring
  have hcast2 : ((ncell - 2 : ℕ) : ℚ) = (ncell : ℚ) - 2 := by
    push_cast [Nat.cast_sub hn]
    ring
  have hy0 : 0 ≤ xc * ((ncell - 2 : ℕ) : ℚ) / boxx := by
    apply div_nonneg _ (le_of_lt hbox)
    exact mul_nonneg hx0 (Nat.cast_nonneg _)
  have hlerp : bmm_fp_lerp xc 0 boxx 1 ((ncell - 1 : ℕ) : ℚ) =
      1 + xc * ((ncell - 2 : ℕ) : ℚ) / boxx := by
    unfold bmm_fp_lerp
    rw [hcast1, hcast2]
    ring
  unfold bmm_dem_cache_ijcell_dim
  dsimp only
  rw [hlerp]
  have hfl : (⌊(1 : ℚ) + xc * ((ncell - 2 : ℕ) : ℚ) / boxx⌋).toNat =
      1 + (⌊xc * ((ncell - 2 : ℕ) : ℚ) / boxx⌋).toNat := by
    rw [add_comm, show (1 : ℚ) = ((1 : ℤ) : ℚ) by norm_num, Int.floor_add_int]
    have h0 : 0 ≤ ⌊xc * ((ncell - 2 : ℕ) : ℚ) / boxx⌋ := Int.floor_nonneg.mpr hy0
    omega
  rcases eq_or_lt_of_le hn with hn2 | hn3
  · have hnc : ncell = 2 := hn2.symm
    subst hnc
    have hz : xc * ((2 - 2 : ℕ) : ℚ) / boxx = 0 := by norm_num
    rw [hz] at hfl ⊢
    rw [if_neg (by norm_num), if_pos (by norm_num)]
    norm_num
  · have hn3' : 3 ≤ ncell := hn3
    have hcpos : (0 : ℚ) < ((ncell - 2 : ℕ) : ℚ) := by
      rw [hcast2]
      have h3 : (3 : ℚ) ≤ (ncell : ℚ) := by exact_mod_cast hn3'
      linarith
    have hylt : xc * ((ncell - 2 : ℕ) : ℚ) / boxx < ((ncell - 2 : ℕ) : ℚ) := by
      rw [div_lt_iff₀ hbox]
      calc xc * ((ncell - 2 : ℕ) : ℚ) < boxx * ((ncell - 2 : ℕ) : ℚ) :=
            mul_lt_mul_of_pos_right hx1 hcpos
        _ = ((ncell - 2 : ℕ) : ℚ) * boxx := by ring
    have hneg2 : ¬ (((ncell - 1 : ℕ) : ℚ) ≤
        1 + xc * ((ncell - 2 : ℕ) : ℚ) / boxx) := by
      rw [hcast1, hcast2]
      rw [hcast2] at hylt
      push_neg
      linarith
    rw [if_neg (by linarith), if_neg hneg2, hfl]

/-- Witness for the amended C3: the theorem applied in a unit box with
`ncell = 5` at the cached coordinate `1/2`, which lands in cell `2`. -/
theorem claim_C3_witness :
    bmm_dem_cache_ijcell_dim 1 5 (1 / 2) =
      1 + (⌊(1 / 2 : ℚ) * (((5 : ℕ) - 2 : ℕ) : ℚ) / 1⌋).toNat :=
  claim_C3_cache_ijcell_interior 1 5 (1 / 2) (by norm_num) (by norm_num)
    (by norm_num) (by norm_num)

/-! ## Staleness detection (claim C2) -/

/-- `bmm_dem_cache_expired` (`dem.c:887-902`): for each dimension `d` the
margin is `dx_d = box.x[d] / ((ncell[d] - 2) * 2)`; the cache has expired
as soon as some particle's drift since the position snapshot,
`|swrap(x[i][d] - cache.x[i][d], box.x[d])|`, is greater than or equal to
`dx_d - r[i]`.  (`ncell[d] - 2` is a C `size_t` subtraction; the truncated
`ℕ` subtraction used here agrees with it whenever `ncell[d] ≥ 2`, and the
theorems below restrict to `ncell[d] ≥ 3` where the margin is
meaningful.) -/
def bmm_dem_cache_expired (dem : BmmDem) : Bool :=
  ((List.range dem.part.n).any fun ipart =>
    decide (dem.opts.box_x.1 / (((dem.opts.cache_ncell.1 - 2) * 2 : ℕ) : ℚ)
        - dem.part.r ipart ≤
      |bmm_fp_swrap ((dem.part.x ipart).1 - (dem.cache.x ipart).1)
        dem.opts.box_x.1|)) ||
  ((List.range dem.part.n).any fun ipart =>
    decide (dem.opts.box_x.2 / (((dem.opts.cache_ncell.2 - 2) * 2 : ℕ) : ℚ)
        - dem.part.r ipart ≤
      |bmm_fp_swrap ((dem.part.x ipart).2 - (dem.cache.x ipart).2)
        dem.opts.box_x.2|))

/-- A zeroed simulation state used as the base of the concrete test
fixtures below (all counts zero, all arrays constant). -/
def demZero : BmmDem where
  opts :=
    { box_x := (1, 1)
      box_per := (false, false)
      famb := BmmDemFamb.creeping
      fnorm := BmmDemFnorm.dashpot
      ftang := BmmDemFtang.hw
      caching := BmmDemCaching.neigh
      part_y := 1
      dashpot_gamma := 1
      hw_gamma := 1
      hw_mu := 1
      cache_ncell := (5, 5)
      cache_rcutoff := 1
      script_mode := BmmDemMode.idle
      sediment_kcohes := 0 }
  part :=
    { n := 0
      lnew := 0
      l := fun _ => 0
      role := fun _ => BmmDemRole.free
      r := fun _ => 1
      m := fun _ => 1
      jred := fun _ => 1 / 2
      x := fun _ => (0, 0)
      v := fun _ => (0, 0)
      a := fun _ => (0, 0)
      phi := fun _ => 0
      omega := fun _ => 0
      alpha := fun _ => 0
      f := fun _ => (0, 0)
      tau := fun _ => 0 }
  link := fun _ => []
  cache :=
    { stale := false
      j := fun _ => 0
      x := fun _ => (0, 0)
      ijcell := fun _ => (0, 0)
      icell := fun _ => 0
      part := fun _ => []
      neigh := fun _ => [] }

/-- Fixture for C2: unit box, `ncell = (4, 4)` (so `dx = 1/4` per
dimension), one particle of radius `1/8` whose position has drifted by
exactly the safe radius `dx - r = 1/8` along dimension 0 since the cached
snapshot at the origin. -/
def demC2 : BmmDem :=
  { demZero with
    opts := { demZero.opts with cache_ncell := (4, 4) }
    part := { demZero.part with
      n := 1
      r := fun _ => 1 / 8
      x := fun _ => (1 / 8, 0) } }

/-- Counterexample to C2 as stated: in the fixture `demC2` every drift is
less than or equal to the safe radius `dx_d - r[i]` (the dimension-0 drift
equals it exactly), yet `bmm_dem_cache_expired` returns `true` — the
comparison in the code is non-strict, so moving exactly one safe radius
already triggers a rebuild. -/
theorem claim_C2_counterexample :
    bmm_dem_cache_expired demC2 = true ∧
    ∀ ipart < demC2.part.n,
      (|bmm_fp_swrap ((demC2.part.x ipart).1 - (demC2.cache.x ipart).1)
          demC2.opts.box_x.1| ≤
        demC2.opts.box_x.1 / (((demC2.opts.cache_ncell.1 - 2) * 2 : ℕ) : ℚ)
          - demC2.part.r ipart) ∧
      (|bmm_fp_swrap ((demC2.part.x ipart).2 - (demC2.cache.x ipart).2)
          demC2.opts.box_x.2| ≤
        demC2.opts.box_x.2 / (((demC2.opts.cache_ncell.2 - 2) * 2 : ℕ) : ℚ)
          - demC2.part.r ipart) := by
  have habs : |(1 / 8 : ℚ)| = 1 / 8 := abs_of_nonneg (by norm_num)
  constructor
  · norm_num [bmm_dem_cache_expired, demC2, demZero, bmm_fp_swrap, habs]
  · intro ipart hip
    have h1 : ipart = 0 := by
      have hn : demC2.part.n = 1 := rfl
      omega
    subst h1
    constructor
    · norm_num [demC2, demZero, bmm_fp_swrap, habs]
    · norm_num [demC2, demZero, bmm_fp_swrap, habs]

/-- C2 (amended): `bmm_dem_cache_expired` returns `true` exactly when some
particle's drift along some dimension is greater than or equal to the safe
radius `dx_d - r[i]` with `dx_d = box.x[d] / (2·(ncell[d] - 2))`; in
particular a particle that has moved exactly one safe radius does trigger a
rebuild (the comparison is non-strict).  The grid hypotheses keep
`ncell[d] - 2` inside the range where the `size_t` arithmetic of the source
is faithfully embedded. -/
theorem claim_C2_cache_expired_iff (dem : BmmDem)
    (h1 : 3 ≤ dem.opts.cache_ncell.1) (h2 : 3 ≤ dem.opts.cache_ncell.2) :
    bmm_dem_cache_expired dem = true ↔
      ∃ ipart < dem.part.n,
        (dem.opts.box_x.1 / (((dem.opts.cache_ncell.1 - 2) * 2 : ℕ) : ℚ)
            - dem.part.r ipart ≤
          |bmm_fp_swrap ((dem.part.x ipart).1 - (dem.cache.x ipart).1)
            dem.opts.box_x.1|) ∨
        (dem.opts.box_x.2 / (((dem.opts.cache_ncell.2 - 2) * 2 : ℕ) : ℚ)
            - dem.part.r ipart ≤
          |bmm_fp_swrap ((dem.part.x ipart).2 - (dem.cache.x ipart).2)
            dem.opts.box_x.2|) := by
  unfold bmm_dem_cache_expired
  simp only [Bool.or_eq_true, List.any_eq_true, List.mem_range,
    decide_eq_true_eq]
  constructor
  · rintro (⟨i, hi, hc⟩ | ⟨i, hi, hc⟩)
    · exact ⟨i, hi, Or.inl hc⟩
    · exact ⟨i, hi, Or.inr hc⟩
  · rintro ⟨i, hi, hc | hc⟩
    · exact Or.inl ⟨i, hi, hc⟩
    · exact Or.inr ⟨i, hi, hc⟩

/-- Witness for the amended C2: the theorem applied to the fixture `demC2`,
whose grid is `4 × 4`. -/
theorem claim_C2_witness :
    bmm_dem_cache_expired demC2 = true ↔
      ∃ ipart < demC2.part.n,
        (demC2.opts.box_x.1 / (((demC2.opts.cache_ncell.1 - 2) * 2 : ℕ) : ℚ)
            - demC2.part.r ipart ≤
          |bmm_fp_swrap ((demC2.part.x ipart).1 - (demC2.cache.x ipart).1)
            demC2.opts.box_x.1|) ∨
        (demC2.opts.box_x.2 / (((demC2.opts.cache_ncell.2 - 2) * 2 : ℕ) : ℚ)
            - demC2.part.r ipart ≤
          |bmm_fp_swrap ((demC2.part.x ipart).2 - (demC2.cache.x ipart).2)
            demC2.opts.box_x.2|) :=
  claim_C2_cache_expired_iff demC2 (by norm_num [demC2, demZero])
    (by norm_num [demC2, demZero])

/-! ## Pair contact force (claim C4)

`bmm_dem_force_pair` (`dem.c:357-429`).  Each local variable of the C body
becomes a named definition so that the theorems can speak about the normal
force scalar `fn` directly. -/

/-- `xdiff` of `bmm_dem_force_pair`: periodic shortest difference of the
two particle positions. -/
def bmm_dem_force_pair_xdiff (dem : BmmDem) (ipart jpart : ℕ) : ℚ × ℚ :=
  bmm_geom2d_cpdiff (dem.part.x ipart) (dem.part.x jpart) dem.opts.box_x
    dem.opts.box_per

/-- `d2` of `bmm_dem_force_pair`: squared center distance. -/
def bmm_dem_force_pair_d2 (dem : BmmDem) (ipart jpart : ℕ) : ℚ :=
  bmm_geom2d_norm2 (bmm_dem_force_pair_xdiff dem ipart jpart)

/-- `d` of `bmm_dem_force_pair`: center distance (`sqrt(d2)`). -/
def bmm_dem_force_pair_d (dem : BmmDem) (ipart jpart : ℕ) : ℚ :=
  ratSqrt (bmm_dem_force_pair_d2 dem ipart jpart)

/-- `xnorm` of `bmm_dem_force_pair`: unit contact normal. -/
def bmm_dem_force_pair_xnorm (dem : BmmDem) (ipart jpart : ℕ) : ℚ × ℚ :=
  bmm_geom2d_scale (bmm_dem_force_pair_xdiff dem ipart jpart)
    (1 / bmm_dem_force_pair_d dem ipart jpart)

/-- `xtang` of `bmm_dem_force_pair`: contact tangent. -/
def bmm_dem_force_pair_xtang (dem : BmmDem) (ipart jpart : ℕ) : ℚ × ℚ :=
  bmm_geom2d_rperp (bmm_dem_force_pair_xnorm dem ipart jpart)

/-- `vdiff` of `bmm_dem_force_pair`: relative velocity. -/
def bmm_dem_force_pair_vdiff (dem : BmmDem) (ipart jpart : ℕ) : ℚ × ℚ :=
  bmm_geom2d_diff (dem.part.v ipart) (dem.part.v jpart)

/-- `xi` of `bmm_dem_force_pair`: overlap `r - d`. -/
def bmm_dem_force_pair_xi (dem : BmmDem) (ipart jpart : ℕ) : ℚ :=
  (dem.part.r ipart + dem.part.r jpart) - bmm_dem_force_pair_d dem ipart jpart

/-- `dotxi` of `bmm_dem_force_pair`: normal relative velocity. -/
def bmm_dem_force_pair_dotxi (dem : BmmDem) (ipart jpart : ℕ) : ℚ :=
  bmm_geom2d_dot (bmm_dem_force_pair_vdiff dem ipart jpart)
    (bmm_dem_force_pair_xnorm dem ipart jpart)

/-- `vtang` of `bmm_dem_force_pair`: tangential relative surface
velocity. -/
def bmm_dem_force_pair_vtang (dem : BmmDem) (ipart jpart : ℕ) : ℚ :=
  bmm_geom2d_dot (bmm_dem_force_pair_vdiff dem ipart jpart)
      (bmm_dem_force_pair_xtang dem ipart jpart) +
    dem.part.r ipart * dem.part.omega ipart +
    dem.part.r jpart * dem.part.omega jpart

/-- `fn` of `bmm_dem_force_pair`: the normal force scalar.  The C switch
handles only `BMM_DEM_FNORM_DASHPOT`; for any other selector `fn` keeps its
initializer `0.0`. -/
def bmm_dem_force_pair_fn (dem : BmmDem) (ipart jpart : ℕ) : ℚ :=
  match dem.opts.fnorm with
  | BmmDemFnorm.dashpot =>
    max 0 (dem.opts.part_y * bmm_dem_force_pair_xi dem ipart jpart +
      dem.opts.dashpot_gamma * bmm_dem_force_pair_dotxi dem ipart jpart)
  | _ => 0

/-- `ft` of `bmm_dem_force_pair`: the tangential force scalar (Haff-Werner
for `BMM_DEM_FTANG_HW`, otherwise the initializer `0.0`). -/
def bmm_dem_force_pair_ft (dem : BmmDem) (ipart jpart : ℕ) : ℚ :=
  match dem.opts.ftang with
  | BmmDemFtang.hw =>
    -(copysign
        (min (dem.opts.hw_gamma * |bmm_dem_force_pair_vtang dem ipart jpart|)
          (dem.opts.hw_mu * bmm_dem_force_pair_fn dem ipart jpart))
        (bmm_dem_force_pair_vtang dem ipart jpart))
  | _ => 0

/-- `bmm_dem_force_pair` (`dem.c:357-429`): skip the pair when the centers
coincide or the disks do not touch (`d2 > r2 || d2 == 0`); otherwise add
the normal force `-fn·n̂` to particle `ipart` and its opposite to `jpart`,
then the tangential force `ft·t̂` to `ipart` (with torque `ft·r_i`) and its
opposite to `jpart` (with torque `ft·r_j`, same sign), in the source's
update order. -/
def bmm_dem_force_pair (dem : BmmDem) (ipart jpart : ℕ) : BmmDem :=
  if bmm_fp_sq (dem.part.r ipart + dem.part.r jpart) <
      bmm_dem_force_pair_d2 dem ipart jpart ∨
      bmm_dem_force_pair_d2 dem ipart jpart = 0 then dem
  else
    let xnorm := bmm_dem_force_pair_xnorm dem ipart jpart
    let xtang := bmm_dem_force_pair_xtang dem ipart jpart
    let fn := bmm_dem_force_pair_fn dem ipart jpart
    let ft := bmm_dem_force_pair_ft dem ipart jpart
    let fdiffn := bmm_geom2d_scale xnorm (-fn)
    let f1 := Function.update dem.part.f ipart
      (bmm_geom2d_addto (dem.part.f ipart) fdiffn)
    let f2 := Function.update f1 jpart
      (bmm_geom2d_addto (f1 jpart) (bmm_geom2d_scale fdiffn (-1)))
    let fdifft := bmm_geom2d_scale xtang ft
    let f3 := Function.update f2 ipart
      (bmm_geom2d_addto (f2 ipart) fdifft)
    let tau1 := Function.update dem.part.tau ipart
      (dem.part.tau ipart + ft * dem.part.r ipart)
    let f4 := Function.update f3 jpart
      (bmm_geom2d_addto (f3 jpart) (bmm_geom2d_scale fdifft (-1)))
    let tau2 := Function.update tau1 jpart
      (tau1 jpart + ft * dem.part.r jpart)
    { dem with part := { dem.part with f := f4, tau := tau2 } }

/-- Fixture for C4: two unit-radius particles whose centers are exactly
`r_0 + r_1 = 2` apart, with particle `0` moving toward particle `1` at
unit speed (dashpot law, `Y = 1`, `γ_n = 1`). -/
def demC4 : BmmDem :=
  { demZero with
    part := { demZero.part with
      n := 2
      x := fun p => if p = 0 then (0, 0) else (2, 0)
      v := fun p => if p = 0 then (1, 0) else (0, 0) } }

/-- Counterexample to C4 as stated: in the fixture `demC4` the two centers
are exactly `r_0 + r_1` apart and the law is `DASHPOT`, yet the normal
force scalar is `fn = max(0, Y·0 + γ_n·ξ̇) = 1 ≠ 0` (the pair is
approaching, so the compression rate `ξ̇ = ⟨v_0 − v_1, n̂⟩` and with it the
dashpot term are positive) and the pair update changes the force on
particle `0`. -/
theorem claim_C4_counterexample :
    bmm_geom2d_cpdist2 (demC4.part.x 0) (demC4.part.x 1) demC4.opts.box_x
        demC4.opts.box_per =
      bmm_fp_sq (demC4.part.r 0 + demC4.part.r 1) ∧
    demC4.opts.fnorm = BmmDemFnorm.dashpot ∧
    bmm_dem_force_pair_fn demC4 0 1 = 1 ∧
    (bmm_dem_force_pair demC4 0 1).part.f 0 ≠ demC4.part.f 0 := by
  have hsq : ratSqrt (4 : ℚ) = 2 := by
    rw [show (4 : ℚ) = 2 * 2 by norm_num]
    exact ratSqrt_mul_self 2 (by norm_num)
  have hd2 : bmm_dem_force_pair_d2 demC4 0 1 = 4 := by
    norm_num [bmm_dem_force_pair_d2, bmm_dem_force_pair_xdiff,
      bmm_geom2d_cpdiff, bmm_geom2d_norm2, demC4, demZero]
  have hd : bmm_dem_force_pair_d demC4 0 1 = 2 := by
    rw [bmm_dem_force_pair_d, hd2, hsq]
  have hxdiff : bmm_dem_force_pair_xdiff demC4 0 1 = (2, 0) := by
    norm_num [bmm_dem_force_pair_xdiff, bmm_geom2d_cpdiff, demC4, demZero]
  have hxnorm : bmm_dem_force_pair_xnorm demC4 0 1 = (1, 0) := by
    rw [bmm_dem_force_pair_xnorm, hxdiff, hd]
    norm_num [bmm_geom2d_scale]
  have hxi : bmm_dem_force_pair_xi demC4 0 1 = 0 := by
    rw [bmm_dem_force_pair_xi, hd]
    norm_num [demC4, demZero]
  have hvdiff : bmm_dem_force_pair_vdiff demC4 0 1 = (1, 0) := by
    norm_num [bmm_dem_force_pair_vdiff, bmm_geom2d_diff, demC4, demZero]
  have hdotxi : bmm_dem_force_pair_dotxi demC4 0 1 = 1 := by
    rw [bmm_dem_force_pair_dotxi, hvdiff, hxnorm]
    norm_num [bmm_geom2d_dot]
  have hfn : bmm_dem_force_pair_fn demC4 0 1 = 1 := by
    rw [show bmm_dem_force_pair_fn demC4 0 1 =
        max 0 (demC4.opts.part_y * bmm_dem_force_pair_xi demC4 0 1 +
          demC4.opts.dashpot_gamma * bmm_dem_force_pair_dotxi demC4 0 1) from
      rfl, hxi, hdotxi]
    norm_num [demC4, demZero]
  have hvtang : bmm_dem_force_pair_vtang demC4 0 1 = 0 := by
    rw [bmm_dem_force_pair_vtang, hvdiff, bmm_dem_force_pair_xtang, hxnorm]
    norm_num [bmm_geom2d_dot, bmm_geom2d_rperp, demC4, demZero]
  have hft : bmm_dem_force_pair_ft demC4 0 1 = 0 := by
    rw [show bmm_dem_force_pair_ft demC4 0 1 =
        -(copysign
          (min (demC4.opts.hw_gamma * |bmm_dem_force_pair_vtang demC4 0 1|)
            (demC4.opts.hw_mu * bmm_dem_force_pair_fn demC4 0 1))
          (bmm_dem_force_pair_vtang demC4 0 1)) from rfl, hvtang, hfn]
    norm_num [copysign, demC4, demZero]
  refine ⟨?_, rfl, hfn, ?_⟩
  · norm_num [bmm_geom2d_cpdist2, bmm_geom2d_cpdiff, bmm_geom2d_norm2,
      bmm_fp_sq, demC4, demZero]
  · rw [bmm_dem_force_pair]
    rw [if_neg (by rw [hd2]; norm_num [demC4, demZero, bmm_fp_sq])]
    dsimp only
    rw [hxnorm, hfn, hft, bmm_dem_force_pair_xtang, hxnorm]
    simp only [Function.update, bmm_geom2d_scale, bmm_geom2d_addto,
      bmm_geom2d_rperp]
    norm_num [demC4, demZero]

/-- C4 (amended): a pair at exactly `d = r_i + r_j` produces zero normal
force provided the dashpot contribution `γ_n·ξ̇` is nonpositive (the pair
is not approaching); in that case the whole update is the identity, since
the Haff-Werner tangential force is Coulomb-capped by `μ·fn = 0`.  (An
approaching pair at exact contact receives the positive dashpot force, as
the counterexample shows.) -/
theorem claim_C4_force_pair_zero_at_contact (dem : BmmDem) (ipart jpart : ℕ)
    (hnorm : dem.opts.fnorm = BmmDemFnorm.dashpot)
    (hr : 0 < dem.part.r ipart + dem.part.r jpart)
    (hd : bmm_dem_force_pair_d2 dem ipart jpart =
      bmm_fp_sq (dem.part.r ipart + dem.part.r jpart))
    (hgt : 0 ≤ dem.opts.hw_gamma)
    (happ : dem.opts.dashpot_gamma *
      bmm_dem_force_pair_dotxi dem ipart jpart ≤ 0) :
    bmm_dem_force_pair_fn dem ipart jpart = 0 ∧
    bmm_dem_force_pair dem ipart jpart = dem := by
  have hdd : bmm_dem_force_pair_d dem ipart jpart =
      dem.part.r ipart + dem.part.r jpart := by
    rw [bmm_dem_force_pair_d, hd, bmm_fp_sq]
    exact ratSqrt_mul_self _ (le_of_lt hr)
  have hxi : bmm_dem_force_pair_xi dem ipart jpart = 0 := by
    rw [bmm_dem_force_pair_xi, hdd, sub_self]
  have hfn : bmm_dem_force_pair_fn dem ipart jpart = 0 := by
    unfold bmm_dem_force_pair_fn
    rw [hnorm]
    rw [hxi, mul_zero, zero_add]
    exact max_eq_left happ
  have hft : bmm_dem_force_pair_ft dem ipart jpart = 0 := by
    unfold bmm_dem_force_pair_ft
    rcases hftang : dem.opts.ftang with h | h | h
    · rfl
    · rw [hfn, mul_zero]
      have hmin : min (dem.opts.hw_gamma *
          |bmm_dem_force_pair_vtang dem ipart jpart|) 0 = 0 :=
        min_eq_right (mul_nonneg hgt (abs_nonneg _))
      rw [hmin]
      unfold copysign
      simp
    · rfl
  refine ⟨hfn, ?_⟩
  unfold bmm_dem_force_pair
  rw [if_neg ?hcond]
  case hcond =>
    rw [hd]
    push_neg
    constructor
    · exact le_refl _
    · rw [bmm_fp_sq]
      positivity
  dsimp only
  rw [hfn, hft]
  simp only [neg_zero, bmm_geom2d_scale, mul_zero, zero_mul,
    bmm_geom2d_addto, add_zero, Prod.mk.eta]
  simp only [Function.update_eq_self]

/-- Witness for the amended C4: the theorem applied to the mirror image of
the counterexample fixture in which particle `0` moves away from particle
`1` (`v_0 = (-1, 0)`), so `γ_n·ξ̇ = -1 ≤ 0` and the update is the
identity. -/
def demC4w : BmmDem :=
  { demC4 with
    part := { demC4.part with
      v := fun p => if p = 0 then (-1, 0) else (0, 0) } }

theorem claim_C4_witness :
    bmm_dem_force_pair_fn demC4w 0 1 = 0 ∧
    bmm_dem_force_pair demC4w 0 1 = demC4w := by
  have hsq : ratSqrt (4 : ℚ) = 2 := by
    rw [show (4 : ℚ) = 2 * 2 by norm_num]
    exact ratSqrt_mul_self 2 (by norm_num)
  have hd2 : bmm_dem_force_pair_d2 demC4w 0 1 = 4 := by
    norm_num [bmm_dem_force_pair_d2, bmm_dem_force_pair_xdiff,
      bmm_geom2d_cpdiff, bmm_geom2d_norm2, demC4w, demC4, demZero]
  have hdotxi : bmm_dem_force_pair_dotxi demC4w 0 1 = -1 := by
    rw [bmm_dem_force_pair_dotxi, bmm_dem_force_pair_vdiff,
      bmm_dem_force_pair_xnorm, bmm_dem_force_pair_xdiff,
      bmm_dem_force_pair_d, hd2, hsq]
    norm_num [bmm_geom2d_dot, bmm_geom2d_diff, bmm_geom2d_scale,
      bmm_geom2d_cpdiff, demC4w, demC4, demZero]
  exact claim_C4_force_pair_zero_at_contact demC4w 0 1 rfl
    (by norm_num [demC4w, demC4, demZero])
    (by rw [hd2]; norm_num [bmm_fp_sq, demC4w, demC4, demZero])
    (by norm_num [demC4w, demC4, demZero])
    (by rw [hdotxi]; norm_num [demC4w, demC4, demZero])

/-! ## The force accumulator (`dem.c:469-503`; claims C9 and C10) -/

/-- The per-particle body of `bmm_dem_force_ambient` (`dem.c:432-450`):
`CREEPING` multiplies both force components by `1.0 - 1e-2`; `QUAD` and
`CORR` multiply by `1.0`. -/
def bmm_dem_force_ambient_f (famb : BmmDemFamb) (v : ℚ × ℚ) : ℚ × ℚ :=
  match famb with
  | BmmDemFamb.creeping => (v.1 * (1 - 1 / 100), v.2 * (1 - 1 / 100))
  | BmmDemFamb.quad => (v.1 * 1, v.2 * 1)
  | BmmDemFamb.corr => (v.1 * 1, v.2 * 1)

/-- `bmm_dem_force_ambient` (`dem.c:432-450`): apply the ambient law to the
force accumulator of particle `ipart`. -/
def bmm_dem_force_ambient (dem : BmmDem) (ipart : ℕ) : BmmDem :=
  { dem with part := { dem.part with
      f := Function.update dem.part.f ipart
        (bmm_dem_force_ambient_f dem.opts.famb (dem.part.f ipart)) } }

/-- `bmm_dem_force_link` (`dem.c:452-456`): the cohesive-bond force.  The C
body is `return;` — a stub — so the state is returned unchanged. -/
def bmm_dem_force_link (dem : BmmDem) (ipart jpart ilink : ℕ) : BmmDem :=
  dem

/-- `bmm_dem_force_external` (`dem.c:458-467`): stage-dependent driving;
the switch handles only `BMM_DEM_MODE_SEDIMENT`, which pulls `f[i][1]`
toward the box midline. -/
def bmm_dem_force_external (dem : BmmDem) (ipart : ℕ) : BmmDem :=
  match dem.opts.script_mode with
  | BmmDemMode.sediment =>
    { dem with part := { dem.part with
        f := Function.update dem.part.f ipart
          ((dem.part.f ipart).1,
           (dem.part.f ipart).2 + dem.opts.sediment_kcohes *
             (dem.opts.box_x.2 / 2 - (dem.part.x ipart).2)) } }
  | _ => dem

/-- The zeroing prologue of `bmm_dem_force` (`dem.c:470-475`): clear `f`
and `tau` of every live particle. -/
def bmm_dem_force_clear (dem : BmmDem) : BmmDem :=
  { dem with part := { dem.part with
      f := fun p => if p < dem.part.n then (0, 0) else dem.part.f p
      tau := fun p => if p < dem.part.n then 0 else dem.part.tau p } }

/-- The ambient pass of `bmm_dem_force` (`dem.c:477-478`). -/
def bmm_dem_force_ambient_pass (dem : BmmDem) : BmmDem :=
  (List.range dem.part.n).foldl bmm_dem_force_ambient dem

/-- The exhaustive pair pass of `bmm_dem_force`
(`dem.c:481-486`, `BMM_DEM_CACHING_NONE`): every ordered pair
`(ipart, jpart)` with `jpart > ipart`. -/
def bmm_dem_force_pairs_none (dem : BmmDem) : BmmDem :=
  (List.range dem.part.n).foldl (fun s ipart =>
    (List.range' (ipart + 1) (s.part.n - (ipart + 1))).foldl
      (fun t jpart => bmm_dem_force_pair t ipart jpart) s) dem

/-- The cached pair pass of `bmm_dem_force`
(`dem.c:487-492`, `BMM_DEM_CACHING_NEIGH`): every entry of every neighbor
list. -/
def bmm_dem_force_pairs_neigh (dem : BmmDem) : BmmDem :=
  (List.range dem.part.n).foldl (fun s ipart =>
    (List.range (s.cache.neigh ipart).length).foldl
      (fun t ineigh =>
        bmm_dem_force_pair t ipart ((t.cache.neigh ipart).getD ineigh 0)) s) dem

/-- The cohesive-bond pass of `bmm_dem_force` (`dem.c:495-497`): apply
`bmm_dem_force_link` to every stored bond. -/
def bmm_dem_force_links_pass (dem : BmmDem) : BmmDem :=
  (List.range dem.part.n).foldl (fun s ipart =>
    (List.range (s.link ipart).length).foldl
      (fun t ilink =>
        bmm_dem_force_link t ipart
          (((t.link ipart).getD ilink
            { i := 0, rrest := 0, phirest := (0, 0), rlim := 0,
              philim := 0 }).i) ilink) s) dem

/-- The external pass of `bmm_dem_force` (`dem.c:499-500`). -/
def bmm_dem_force_external_pass (dem : BmmDem) : BmmDem :=
  (List.range dem.part.n).foldl bmm_dem_force_external dem

/-- `bmm_dem_force` (`dem.c:469-503`): zero the accumulators, then run the
ambient, pair (by caching mode), link and external passes in order. -/
def bmm_dem_force (dem : BmmDem) : BmmDem :=
  let s1 := bmm_dem_force_clear dem
  let s2 := bmm_dem_force_ambient_pass s1
  let s3 :=
    match s2.opts.caching with
    | BmmDemCaching.none => bmm_dem_force_pairs_none s2
    | BmmDemCaching.neigh => bmm_dem_force_pairs_neigh s2
  let s4 := bmm_dem_force_links_pass s3
  bmm_dem_force_external_pass s4

/-- C9: the cohesive-bond pass changes nothing: `bmm_dem_force_link`
returns the state unchanged for every bond, and hence the whole link pass
of the force accumulator leaves all forces, torques and the entire link
store intact — in particular no bond is ever broken or removed. -/
theorem claim_C9_force_link_stub :
    (∀ (dem : BmmDem) (ipart jpart ilink : ℕ),
      bmm_dem_force_link dem ipart jpart ilink = dem) ∧
    (∀ dem : BmmDem, bmm_dem_force_links_pass dem = dem) := by
  constructor
  · intro dem ipart jpart ilink
    rfl
  · intro dem
    unfold bmm_dem_force_links_pass
    have hinner : ∀ (l : List ℕ) (s : BmmDem) (ipart : ℕ),
        l.foldl (fun t ilink =>
          bmm_dem_force_link t ipart
            (((t.link ipart).getD ilink
              { i := 0, rrest := 0, phirest := (0, 0), rlim := 0,
                philim := 0 }).i) ilink) s = s := by
      intro l
      induction l with
      | nil => intro s ipart; rfl
      | cons hd tl ih => intro s ipart; exact ih s ipart
    have houter : ∀ (l : List ℕ) (s : BmmDem),
        l.foldl (fun s ipart =>
          (List.range (s.link ipart).length).foldl
            (fun t ilink =>
              bmm_dem_force_link t ipart
                (((t.link ipart).getD ilink
                  { i := 0, rrest := 0, phirest := (0, 0), rlim := 0,
                    philim := 0 }).i) ilink) s) s = s := by
      intro l
      induction l with
      | nil => intro s; rfl
      | cons hd tl ih =>
        intro s
        rw [List.foldl_cons, hinner]
        exact ih s

    exact houter _ _

/-- Specification-side pipeline for claim C10: the force accumulator "with
an identity ambient law", i.e. `bmm_dem_force` with the ambient pass
removed.  This definition follows the claim's words and exists to be
compared with `bmm_dem_force`. -/
def bmm_dem_force_identity_ambient (dem : BmmDem) : BmmDem :=
  let s1 := bmm_dem_force_clear dem
  let s3 :=
    match s1.opts.caching with
    | BmmDemCaching.none => bmm_dem_force_pairs_none s1
    | BmmDemCaching.neigh => bmm_dem_force_pairs_neigh s1
  let s4 := bmm_dem_force_links_pass s3
  bmm_dem_force_external_pass s4

theorem bmm_dem_force_ambient_zeroed (s : BmmDem) (ipart : ℕ)
    (hz : s.part.f ipart = (0, 0)) :
    bmm_dem_force_ambient s ipart = s := by
  unfold bmm_dem_force_ambient
  have hf : bmm_dem_force_ambient_f s.opts.famb (s.part.f ipart) =
      s.part.f ipart := by
    rw [hz]
    cases s.opts.famb <;> norm_num [bmm_dem_force_ambient_f]
  rw [hf, Function.update_eq_self]

theorem bmm_dem_force_ambient_pass_cleared (dem : BmmDem) :
    bmm_dem_force_ambient_pass (bmm_dem_force_clear dem) =
      bmm_dem_force_clear dem := by
  unfold bmm_dem_force_ambient_pass
  have key : ∀ (l : List ℕ) (s : BmmDem),
      (∀ i ∈ l, s.part.f i = (0, 0)) → l.foldl bmm_dem_force_ambient s = s := by
    intro l
    induction l with
    | nil => intro s _; rfl
    | cons hd tl ih =>
      intro s hs
      rw [List.foldl_cons, bmm_dem_force_ambient_zeroed s hd (hs hd (by simp))]
      exact ih s fun i hi => hs i (by simp [hi])
  apply key
  intro i hi
  rw [List.mem_range] at hi
  show (if i < dem.part.n then ((0 : ℚ), (0 : ℚ)) else dem.part.f i) = (0, 0)
  rw [if_pos]
  exact hi

/-- C10: running the force accumulator with the ambient law `CREEPING`
produces exactly the same result — in particular the same final forces `f`
and torques `tau` — as running it with an identity ambient law: the ambient
pass acts right after `f` is zeroed, so multiplying every component by
`1 - 10⁻²` operates on zeros and never affects any value. -/
theorem claim_C10_creeping_is_identity (dem : BmmDem)
    (hc : dem.opts.famb = BmmDemFamb.creeping) :
    (bmm_dem_force dem).part.f = (bmm_dem_force_identity_ambient dem).part.f ∧
    (bmm_dem_force dem).part.tau =
      (bmm_dem_force_identity_ambient dem).part.tau := by
  have h : bmm_dem_force dem = bmm_dem_force_identity_ambient dem := by
    unfold bmm_dem_force bmm_dem_force_identity_ambient
    dsimp only
    rw [bmm_dem_force_ambient_pass_cleared]
  rw [h]
  exact ⟨rfl, rfl⟩

/-- Witness for C10: the theorem applied to the concrete fixture `demC4`,
whose ambient law is `CREEPING`. -/
theorem claim_C10_witness :
    (bmm_dem_force demC4).part.f =
      (bmm_dem_force_identity_ambient demC4).part.f ∧
    (bmm_dem_force demC4).part.tau =
      (bmm_dem_force_identity_ambient demC4).part.tau :=
  claim_C10_creeping_is_identity demC4 rfl

/-! ## Particle store: add and remove (claims C7 and C8)

The capacity `BMM_MPART` is a compile-time constant from the unprovided
`conf.h`, so the operations take it as a parameter. -/

/-- `bmm_dem_addpart` (`dem.c:258-294`): when the table is full the C
function returns the sentinel `SIZE_MAX` and touches nothing; the sentinel
is embedded as `Option.none`.  Otherwise slot `n` receives a fresh particle
(label `lnew`, unit radius and mass, disk reduced moment, everything
kinematic zeroed), the count and the label counter are bumped, the cache is
marked stale, and the new index is returned. -/
def bmm_dem_addpart (MPART : ℕ) (dem : BmmDem) : BmmDem × Option ℕ :=
  let ipart := dem.part.n
  if MPART ≤ ipart then (dem, Option.none)
  else
    ({ dem with
       part := { dem.part with
         n := dem.part.n + 1
         lnew := dem.part.lnew + 1
         l := Function.update dem.part.l ipart dem.part.lnew
         role := Function.update dem.part.role ipart BmmDemRole.free
         r := Function.update dem.part.r ipart 1
         m := Function.update dem.part.m ipart 1
         jred := Function.update dem.part.jred ipart (bmm_geom_ballprmoi 2)
         x := Function.update dem.part.x ipart (0, 0)
         v := Function.update dem.part.v ipart (0, 0)
         a := Function.update dem.part.a ipart (0, 0)
         phi := Function.update dem.part.phi ipart 0
         omega := Function.update dem.part.omega ipart 0
         alpha := Function.update dem.part.alpha ipart 0
         f := Function.update dem.part.f ipart (0, 0)
         tau := Function.update dem.part.tau ipart 0 }
       cache := { dem.cache with stale := true } }, some ipart)

/-- `bmm_dem_reassign` (`dem.c:296-343`): copy every per-particle field of
`jpart` into slot `ipart`, including the whole live link list. -/
def bmm_dem_reassign (dem : BmmDem) (ipart jpart : ℕ) : BmmDem :=
  { dem with
    part := { dem.part with
      role := Function.update dem.part.role ipart (dem.part.role jpart)
      l := Function.update dem.part.l ipart (dem.part.l jpart)
      r := Function.update dem.part.r ipart (dem.part.r jpart)
      m := Function.update dem.part.m ipart (dem.part.m jpart)
      jred := Function.update dem.part.jred ipart (dem.part.jred jpart)
      x := Function.update dem.part.x ipart (dem.part.x jpart)
      v := Function.update dem.part.v ipart (dem.part.v jpart)
      a := Function.update dem.part.a ipart (dem.part.a jpart)
      phi := Function.update dem.part.phi ipart (dem.part.phi jpart)
      omega := Function.update dem.part.omega ipart (dem.part.omega jpart)
      alpha := Function.update dem.part.alpha ipart (dem.part.alpha jpart)
      f := Function.update dem.part.f ipart (dem.part.f jpart)
      tau := Function.update dem.part.tau ipart (dem.part.tau jpart) }
    link := Function.update dem.link ipart (dem.link jpart) }

/-- `bmm_dem_rempart` (`dem.c:345-355`): decrement the count, move the old
last particle into the freed slot unless it is the removed one, and mark
the cache stale. -/
def bmm_dem_rempart (dem : BmmDem) (ipart : ℕ) : BmmDem :=
  let s := { dem with part := { dem.part with n := dem.part.n - 1 } }
  let jpart := s.part.n
  let s2 := if jpart ≠ ipart then bmm_dem_reassign s ipart jpart else s
  { s2 with cache := { s2.cache with stale := true } }

/-- `bmm_dem_def` (`dem.c:805-833`): the freshly initialized simulation —
everything zeroed, counts and link lists cleared, cache not stale. -/
def bmm_dem_def (opts : BmmDemOpts) : BmmDem where
  opts := opts
  part :=
    { n := 0
      lnew := 0
      l := fun _ => 0
      role := fun _ => BmmDemRole.free
      r := fun _ => 0
      m := fun _ => 0
      jred := fun _ => 0
      x := fun _ => (0, 0)
      v := fun _ => (0, 0)
      a := fun _ => (0, 0)
      phi := fun _ => 0
      omega := fun _ => 0
      alpha := fun _ => 0
      f := fun _ => (0, 0)
      tau := fun _ => 0 }
  link := fun _ => []
  cache :=
    { stale := false
      j := fun _ => 0
      x := fun _ => (0, 0)
      ijcell := fun _ => (0, 0)
      icell := fun _ => 0
      part := fun _ => []
      neigh := fun _ => [] }

/-- C7: adding a particle to a full table returns the sentinel and leaves
the whole state unchanged; otherwise the particle lands at index `n` with
position at the origin and zero velocity, gets the fresh label `lnew`, the
label counter is incremented, the cache is marked stale, and the new index
is returned. -/
theorem claim_C7_addpart (MPART : ℕ) (dem : BmmDem) :
    (MPART ≤ dem.part.n →
      bmm_dem_addpart MPART dem = (dem, Option.none)) ∧
    (dem.part.n < MPART →
      (bmm_dem_addpart MPART dem).2 = some dem.part.n ∧
      (bmm_dem_addpart MPART dem).1.part.n = dem.part.n + 1 ∧
      (bmm_dem_addpart MPART dem).1.part.x dem.part.n = (0, 0) ∧
      (bmm_dem_addpart MPART dem).1.part.v dem.part.n = (0, 0) ∧
      (bmm_dem_addpart MPART dem).1.part.l dem.part.n = dem.part.lnew ∧
      (bmm_dem_addpart MPART dem).1.part.lnew = dem.part.lnew + 1 ∧
      (bmm_dem_addpart MPART dem).1.cache.stale = true) := by
  constructor
  · intro hfull
    unfold bmm_dem_addpart
    rw [if_pos hfull]
  · intro hroom
    unfold bmm_dem_addpart
    rw [if_neg (by omega)]
    refine ⟨rfl, rfl, ?_, ?_, ?_, rfl, rfl⟩
    · exact Function.update_same _ _ _
    · exact Function.update_same _ _ _
    · exact Function.update_same _ _ _

/-- Witness for C7: both branches at concrete states — the empty initial
state with capacity `0` (full) and with capacity `2` (room). -/
theorem claim_C7_witness :
    (bmm_dem_addpart 0 (bmm_dem_def demZero.opts) =
      (bmm_dem_def demZero.opts, Option.none)) ∧
    ((bmm_dem_addpart 2 (bmm_dem_def demZero.opts)).2 =
        some (bmm_dem_def demZero.opts).part.n ∧
      (bmm_dem_addpart 2 (bmm_dem_def demZero.opts)).1.part.n =
        (bmm_dem_def demZero.opts).part.n + 1 ∧
      (bmm_dem_addpart 2 (bmm_dem_def demZero.opts)).1.part.x
        (bmm_dem_def demZero.opts).part.n = (0, 0) ∧
      (bmm_dem_addpart 2 (bmm_dem_def demZero.opts)).1.part.v
        (bmm_dem_def demZero.opts).part.n = (0, 0) ∧
      (bmm_dem_addpart 2 (bmm_dem_def demZero.opts)).1.part.l
        (bmm_dem_def demZero.opts).part.n =
          (bmm_dem_def demZero.opts).part.lnew ∧
      (bmm_dem_addpart 2 (bmm_dem_def demZero.opts)).1.part.lnew =
        (bmm_dem_def demZero.opts).part.lnew + 1 ∧
      (bmm_dem_addpart 2 (bmm_dem_def demZero.opts)).1.cache.stale = true) :=
  ⟨(claim_C7_addpart 0 (bmm_dem_def demZero.opts)).1 (by omega),
    (claim_C7_addpart 2 (bmm_dem_def demZero.opts)).2 (by
      show (0 : ℕ) < 2
      omega)⟩

/-- The operation sequences of claim C8: states reachable from a freshly
initialized simulation by adding particles and removing particles at valid
indices. -/
inductive BmmDemReach (MPART : ℕ) : BmmDem → Prop
  | init (opts : BmmDemOpts) : BmmDemReach MPART (bmm_dem_def opts)
  | add {s : BmmDem} : BmmDemReach MPART s →
      BmmDemReach MPART (bmm_dem_addpart MPART s).1
  | rem {s : BmmDem} (i : ℕ) : BmmDemReach MPART s → i < s.part.n →
      BmmDemReach MPART (bmm_dem_rempart s i)

theorem bmm_dem_reach_inv (MPART : ℕ) (s : BmmDem)
    (h : BmmDemReach MPART s) :
    s.part.n ≤ MPART ∧ (∀ p, p < s.part.n → s.part.l p < s.part.lnew) ∧
      (∀ p q, p < s.part.n → q < s.part.n → p ≠ q →
        s.part.l p ≠ s.part.l q) := by
  induction h with
  | init opts =>
    exact ⟨Nat.zero_le _, fun p hp => absurd hp (Nat.not_lt_zero p),
      fun p q hp _ _ => absurd hp (Nat.not_lt_zero p)⟩
  | @add s hs ih =>
    obtain ⟨ihn, ihlt, ihnd⟩ := ih
    unfold bmm_dem_addpart
    by_cases hfull : MPART ≤ s.part.n
    · rw [if_pos hfull]
      exact ⟨ihn, ihlt, ihnd⟩
    · rw [if_neg hfull]
      dsimp only
      refine ⟨by omega, ?_, ?_⟩
      · intro p hp
        by_cases hpn : p = s.part.n
        · subst hpn
          rw [Function.update_same]
          omega
        · rw [Function.update_noteq hpn]
          have := ihlt p (by omega)
          omega
      · intro p q hp hq hpq
        by_cases hpn : p = s.part.n <;> by_cases hqn : q = s.part.n
        · omega
        · subst hpn
          rw [Function.update_same, Function.update_noteq hqn]
          have := ihlt q (by omega)
          omega
        · subst hqn
          rw [Function.update_same, Function.update_noteq hpn]
          have := ihlt p (by omega)
          omega
        · rw [Function.update_noteq hpn, Function.update_noteq hqn]
          exact ihnd p q (by omega) (by omega) hpq
  | @rem s i hs hi ih =>
    obtain ⟨ihn, ihlt, ihnd⟩ := ih
    by_cases hij : s.part.n - 1 ≠ i
    · have hn : (bmm_dem_rempart s i).part.n = s.part.n - 1 := by
        unfold bmm_dem_rempart
        dsimp only
        rw [if_pos hij]
        rfl
      have hlnew : (bmm_dem_rempart s i).part.lnew = s.part.lnew := by
        unfold bmm_dem_rempart
        dsimp only
        rw [if_pos hij]
        rfl
      have hl : (bmm_dem_rempart s i).part.l =
          Function.update s.part.l i (s.part.l (s.part.n - 1)) := by
        unfold bmm_dem_rempart
        dsimp only
        rw [if_pos hij]
        rfl
      rw [hn, hlnew, hl]
      refine ⟨by omega, ?_, ?_⟩
      · intro p hp
        by_cases hpi : p = i
        · subst hpi
          rw [Function.update_same]
          exact ihlt (s.part.n - 1) (by omega)
        · rw [Function.update_noteq hpi]
          exact ihlt p (by omega)
      · intro p q hp hq hpq
        by_cases hpi : p = i <;> by_cases hqi : q = i
        · omega
        · subst hpi
          rw [Function.update_same, Function.update_noteq hqi]
          exact ihnd (s.part.n - 1) q (by omega) (by omega) (by omega)
        · subst hqi
          rw [Function.update_same, Function.update_noteq hpi]
          exact ihnd p (s.part.n - 1) (by omega) (by omega) (by omega)
        · rw [Function.update_noteq hpi, Function.update_noteq hqi]
          exact ihnd p q (by omega) (by omega) hpq
    · have hn : (bmm_dem_rempart s i).part.n = s.part.n - 1 := by
        unfold bmm_dem_rempart
        dsimp only
        rw [if_neg hij]
      have hlnew : (bmm_dem_rempart s i).part.lnew = s.part.lnew := by
        unfold bmm_dem_rempart
        dsimp only
        rw [if_neg hij]
      have hl : (bmm_dem_rempart s i).part.l = s.part.l := by
        unfold bmm_dem_rempart
        dsimp only
        rw [if_neg hij]
      rw [hn, hlnew, hl]
      refine ⟨by omega, ?_, ?_⟩
      · intro p hp
        exact ihlt p (by omega)
      · intro p q hp hq hpq
        exact ihnd p q (by omega) (by omega) hpq

/-- C8: after any sequence of adds and valid removes starting from the
initial state, the particle count stays within `0 ≤ n ≤ MPART` and the
labels of the live slots are pairwise distinct. -/
theorem claim_C8_store_invariant (MPART : ℕ) (s : BmmDem)
    (h : BmmDemReach MPART s) :
    s.part.n ≤ MPART ∧
      ∀ p q, p < s.part.n → q < s.part.n → p ≠ q →
        s.part.l p ≠ s.part.l q := by
  obtain ⟨h1, _, h3⟩ := bmm_dem_reach_inv MPART s h
  exact ⟨h1, h3⟩

/-- Witness for C8: the theorem applied to the state obtained by two adds
followed by removing index `0`, with capacity `2`. -/
theorem claim_C8_witness :
    (bmm_dem_rempart
        (bmm_dem_addpart 2 (bmm_dem_addpart 2 (bmm_dem_def demZero.opts)).1).1
        0).part.n ≤ 2 ∧
    ∀ p q,
      p < (bmm_dem_rempart
        (bmm_dem_addpart 2 (bmm_dem_addpart 2 (bmm_dem_def demZero.opts)).1).1
        0).part.n →
      q < (bmm_dem_rempart
        (bmm_dem_addpart 2 (bmm_dem_addpart 2 (bmm_dem_def demZero.opts)).1).1
        0).part.n →
      p ≠ q →
      (bmm_dem_rempart
        (bmm_dem_addpart 2 (bmm_dem_addpart 2 (bmm_dem_def demZero.opts)).1).1
        0).part.l p ≠
      (bmm_dem_rempart
        (bmm_dem_addpart 2 (bmm_dem_addpart 2 (bmm_dem_def demZero.opts)).1).1
        0).part.l q :=
  claim_C8_store_invariant 2 _
    (BmmDemReach.rem 0
      (BmmDemReach.add (BmmDemReach.add (BmmDemReach.init demZero.opts)))
      (by norm_num [bmm_dem_addpart, bmm_dem_def]))

/-! ## Neighbor-cell enumeration and cache rebuild (claim C1)

The cell-walking helpers `bmm_neigh_ncpij` / `bmm_neigh_icpij` live in the
unprovided `neigh.h` and are modelled from §4.4 of the specification; the
pair (count, `k`-th cell) is modelled as the list of enumerated cells. -/

/-- Modelled from the spec: the 2-D `BMM_NEIGH_MASK_UPPERH` offset set —
"the cell itself plus cells whose offset vector is lexicographically
greater than zero.  For 2D this is 5 of the 9 Moore cells." -/
def bmm_neigh_mask_upperh : List (ℤ × ℤ) :=
  [(0, 0), (0, 1), (1, -1), (1, 0), (1, 1)]

/-- Modelled from the spec: resolution of one offset component against one
grid dimension — "when a dimension is periodic the iteration wraps modulo
`ncell[d]`; for non-periodic dimensions cells outside `[0, ncell[d])` are
skipped." -/
def bmm_neigh_cellshift (per : Bool) (ncell : ℕ) (c : ℕ) (o : ℤ) :
    Option ℕ :=
  if per then some (((c : ℤ) + o) % (ncell : ℤ)).toNat
  else
    if 0 ≤ (c : ℤ) + o ∧ (c : ℤ) + o < (ncell : ℤ) then
      some ((c : ℤ) + o).toNat
    else none

/-- Modelled from the spec: resolution of one whole mask offset against
the grid — both components must land on real cells, and the result is the
flattened row-major cell index. -/
def bmm_neigh_resolve (per : Bool × Bool) (ncell : ℕ × ℕ) (cij : ℕ × ℕ)
    (o : ℤ × ℤ) : Option ℕ :=
  match bmm_neigh_cellshift per.1 ncell.1 cij.1 o.1,
      bmm_neigh_cellshift per.2 ncell.2 cij.2 o.2 with
  | some c1, some c2 => some (bmm_unhcd [c1, c2] [ncell.1, ncell.2])
  | _, _ => none

/-- Modelled from the spec: the cells enumerated by
`bmm_neigh_ncpij`/`bmm_neigh_icpij` (missing `neigh.h`) around the cell
vector `cij` under the upper-half mask, as flattened row-major indices. -/
def bmm_neigh_cells (per : Bool × Bool) (ncell : ℕ × ℕ) (cij : ℕ × ℕ) :
    List ℕ :=
  bmm_neigh_mask_upperh.filterMap (bmm_neigh_resolve per ncell cij)

/-- `bmm_dem_cache_eligible` (`dem.c:120-139`): `jpart` is an eligible
neighbor of `ipart` unless the same-cell tie-break `jpart ≤ ipart` fires or
the cached periodic-image squared distance exceeds `rcutoff²`. -/
def bmm_dem_cache_eligible (dem : BmmDem) (ipart jpart : ℕ) : Bool :=
  if dem.cache.icell ipart = dem.cache.icell jpart ∧ jpart ≤ ipart then
    false
  else if bmm_fp_sq dem.opts.cache_rcutoff <
      bmm_geom2d_cpdist2 (dem.cache.x ipart) (dem.cache.x jpart)
        dem.opts.box_x dem.opts.box_per then
    false
  else true

/-- The `bmm_dem_cache_j` loop of `bmm_dem_cache_build` (`dem.c:231-232`):
cache the moment of inertia `jred·m·r²` of every live particle. -/
def bmm_dem_cache_build_j (dem : BmmDem) : BmmDem :=
  { dem with cache := { dem.cache with
      j := fun p => if p < dem.part.n then
        dem.part.jred p * dem.part.m p * bmm_fp_sq (dem.part.r p)
      else dem.cache.j p } }

/-- The `bmm_dem_cache_x` loop of `bmm_dem_cache_build` (`dem.c:234-235`):
snapshot every live particle's position. -/
def bmm_dem_cache_build_x (dem : BmmDem) : BmmDem :=
  { dem with cache := { dem.cache with
      x := fun p => if p < dem.part.n then dem.part.x p
      else dem.cache.x p } }

/-- The `bmm_dem_cache_ijcell` loop of `bmm_dem_cache_build`
(`dem.c:237-238`): compute every live particle's cell index vector from the
cached positions. -/
def bmm_dem_cache_build_ijcell (dem : BmmDem) : BmmDem :=
  { dem with cache := { dem.cache with
      ijcell := fun p => if p < dem.part.n then
        bmm_dem_cache_ijcell_vec dem p
      else dem.cache.ijcell p } }

/-- The `bmm_dem_cache_icell` loop of `bmm_dem_cache_build`
(`dem.c:240-241`): flatten every live particle's cell index vector with
`bmm_size_unhcd` (`bmm_unhcd` at `A = size_t`). -/
def bmm_dem_cache_build_icell (dem : BmmDem) : BmmDem :=
  { dem with cache := { dem.cache with
      icell := fun p => if p < dem.part.n then
        bmm_unhcd [(dem.cache.ijcell p).1, (dem.cache.ijcell p).2]
          [dem.opts.cache_ncell.1, dem.opts.cache_ncell.2]
      else dem.cache.icell p } }

/-- `bmm_dem_cache_clrparts` (`dem.c:88-95`): clear every cell list. -/
def bmm_dem_cache_clrparts (dem : BmmDem) : BmmDem :=
  { dem with cache := { dem.cache with part := fun _ => [] } }

/-- `bmm_dem_cache_addpart` (`dem.c:97-118`): append `ipart` to its cell's
list, failing when the cell already holds `BMM_NGROUP` particles. -/
def bmm_dem_cache_addpart (NGROUP : ℕ) (dem : BmmDem) (ipart : ℕ) :
    Option BmmDem :=
  let icell := dem.cache.icell ipart
  if NGROUP ≤ (dem.cache.part icell).length then none
  else some { dem with cache := { dem.cache with
    part := Function.update dem.cache.part icell
      (dem.cache.part icell ++ [ipart]) } }

/-- `bmm_dem_cache_clrneighs` (`dem.c:141-148`): clear every live
particle's neighbor list. -/
def bmm_dem_cache_clrneighs (dem : BmmDem) : BmmDem :=
  { dem with cache := { dem.cache with
      neigh := fun p => if p < dem.part.n then [] else dem.cache.neigh p } }

/-- `bmm_dem_cache_addfrom` (`dem.c:154-190`): walk the upper-half-masked
neighborhood of `ipart`'s cell and append every eligible particle found in
those cell lists to `neigh[ipart]`, failing on overflow of the neighbor
capacity `BMM_NGROUP * (3² / 2) = NGROUP * 4` (`dem.h`). -/
def bmm_dem_cache_addfrom (NGROUP : ℕ) (dem : BmmDem) (ipart : ℕ) :
    Option BmmDem :=
  ((bmm_neigh_cells dem.opts.box_per dem.opts.cache_ncell
      (dem.cache.ijcell ipart)).flatMap dem.cache.part).foldlM
    (fun s jpart =>
      if bmm_dem_cache_eligible s ipart jpart then
        if NGROUP * 4 ≤ (s.cache.neigh ipart).length then none
        else some { s with cache := { s.cache with
          neigh := Function.update s.cache.neigh ipart
            (s.cache.neigh ipart ++ [jpart]) } }
      else some s) dem

/-- `bmm_dem_cache_build` (`dem.c:230-256`): moments, snapshots, cell
vectors, flat cells, then the cell lists (failing on cell overflow), then
the neighbor lists (failing on neighbor overflow), and finally clear the
stale flag. -/
def bmm_dem_cache_build (NGROUP : ℕ) (dem : BmmDem) : Option BmmDem :=
  let s1 := bmm_dem_cache_build_j dem
  let s2 := bmm_dem_cache_build_x s1
  let s3 := bmm_dem_cache_build_ijcell s2
  let s4 := bmm_dem_cache_build_icell s3
  let s5 := bmm_dem_cache_clrparts s4
  ((List.range s5.part.n).foldlM (bmm_dem_cache_addpart NGROUP) s5).bind
    fun s6 =>
      ((List.range (bmm_dem_cache_clrneighs s6).part.n).foldlM
          (bmm_dem_cache_addfrom NGROUP) (bmm_dem_cache_clrneighs s6)).map
        fun s7 => { s7 with cache := { s7.cache with stale := false } }

/-! ### Basic facts used by the C1 proofs -/

theorem bmm_dem_cache_eligible_iff (dem : BmmDem) (ipart jpart : ℕ) :
    bmm_dem_cache_eligible dem ipart jpart = true ↔
      ¬(dem.cache.icell ipart = dem.cache.icell jpart ∧ jpart ≤ ipart) ∧
      bmm_geom2d_cpdist2 (dem.cache.x ipart) (dem.cache.x jpart)
          dem.opts.box_x dem.opts.box_per ≤
        bmm_fp_sq dem.opts.cache_rcutoff := by
  unfold bmm_dem_cache_eligible
  by_cases h1 : dem.cache.icell ipart = dem.cache.icell jpart ∧ jpart ≤ ipart
  · rw [if_pos h1]
    simp [h1]
  · rw [if_neg h1]
    by_cases h2 : bmm_fp_sq dem.opts.cache_rcutoff <
        bmm_geom2d_cpdist2 (dem.cache.x ipart) (dem.cache.x jpart)
          dem.opts.box_x dem.opts.box_per
    · rw [if_pos h2]
      simp [h1]
      linarith
    · rw [if_neg h2]
      simp [h1]
      linarith

theorem bmm_dem_cache_eligible_congr (s t : BmmDem)
    (h1 : s.cache.icell = t.cache.icell) (h2 : s.cache.x = t.cache.x)
    (h3 : s.opts = t.opts) :
    bmm_dem_cache_eligible s = bmm_dem_cache_eligible t := by
  funext ipart jpart
  unfold bmm_dem_cache_eligible
  rw [h1, h2, h3]

theorem bmm_fp_swrap_sq_neg (x p : ℚ) :
    bmm_fp_swrap (-x) p * bmm_fp_swrap (-x) p =
      bmm_fp_swrap x p * bmm_fp_swrap x p := by
  by_cases hp : p = 0
  · subst hp
    unfold bmm_fp_swrap
    norm_num
  · have key : ∀ t : ℚ, bmm_fp_swrap t p =
        p * (Int.fract (t / p + 1 / 2) - 1 / 2) := by
      intro t
      unfold bmm_fp_swrap Int.fract
      field_simp
      ring
    rw [key, key]
    have harg : -x / p + 1 / 2 = ((1 : ℤ) : ℚ) + -(x / p + 1 / 2) := by
      push_cast
      ring
    by_cases hfr : Int.fract (x / p + 1 / 2) = 0
    · have h2 : Int.fract (-x / p + 1 / 2) = 0 := by
        rw [harg, Int.fract_int_add, Int.fract_neg_eq_zero]
        exact hfr
      rw [h2, hfr]
    · have h2 : Int.fract (-x / p + 1 / 2) =
          1 - Int.fract (x / p + 1 / 2) := by
        rw [harg, Int.fract_int_add, Int.fract_neg hfr]
      rw [h2]
      ring

theorem bmm_geom2d_cpdist2_symm (a b box : ℚ × ℚ) (per : Bool × Bool) :
    bmm_geom2d_cpdist2 a b box per = bmm_geom2d_cpdist2 b a box per := by
  unfold bmm_geom2d_cpdist2 bmm_geom2d_cpdiff bmm_geom2d_norm2
  have h1 : b.1 - a.1 = -(a.1 - b.1) := by ring
  have h2 : b.2 - a.2 = -(a.2 - b.2) := by ring
  rcases per with ⟨p1, p2⟩
  cases p1 <;> cases p2 <;>
    simp only [Bool.false_eq_true, if_false, if_true, h1, h2,
      bmm_fp_swrap_sq_neg] <;> ring

theorem bmm_neigh_cellshift_lt {per : Bool} {ncell c : ℕ} {o : ℤ} {d : ℕ}
    (hn : 0 < ncell) (h : bmm_neigh_cellshift per ncell c o = some d) :
    d < ncell := by
  unfold bmm_neigh_cellshift at h
  cases per with
  | true =>
    rw [if_pos rfl] at h
    have h0 : (0 : ℤ) ≤ ((c : ℤ) + o) % (ncell : ℤ) :=
      Int.emod_nonneg _ (by exact_mod_cast Nat.pos_iff_ne_zero.mp hn)
    have h1 : ((c : ℤ) + o) % (ncell : ℤ) < (ncell : ℤ) :=
      Int.emod_lt_of_pos _ (by exact_mod_cast hn)
    have hd : d = (((c : ℤ) + o) % (ncell : ℤ)).toNat := by
      exact (Option.some_inj.mp h).symm
    omega
  | false =>
    rw [if_neg (by simp)] at h
    by_cases hin : 0 ≤ (c : ℤ) + o ∧ (c : ℤ) + o < (ncell : ℤ)
    · rw [if_pos hin] at h
      have hd : d = ((c : ℤ) + o).toNat := (Option.some_inj.mp h).symm
      omega
    · rw [if_neg hin] at h
      exact absurd h (by simp)

theorem bmm_neigh_cellshift_unique {per : Bool} {ncell c : ℕ} {o o' : ℤ}
    {d : ℕ} (hn : 3 ≤ ncell) (ho : o.natAbs ≤ 1) (ho' : o'.natAbs ≤ 1)
    (h : bmm_neigh_cellshift per ncell c o = some d)
    (h' : bmm_neigh_cellshift per ncell c o' = some d) : o = o' := by
  unfold bmm_neigh_cellshift at h h'
  cases per with
  | true =>
    rw [if_pos rfl] at h h'
    have e1 : (((c : ℤ) + o) % (ncell : ℤ)).toNat = d := Option.some_inj.mp h
    have e2 : (((c : ℤ) + o') % (ncell : ℤ)).toNat = d := Option.some_inj.mp h'
    have hnz : (ncell : ℤ) ≠ 0 := by exact_mod_cast Nat.pos_iff_ne_zero.mp (by omega)
    have h0 : (0 : ℤ) ≤ ((c : ℤ) + o) % (ncell : ℤ) := Int.emod_nonneg _ hnz
    have h0' : (0 : ℤ) ≤ ((c : ℤ) + o') % (ncell : ℤ) := Int.emod_nonneg _ hnz
    have heq : ((c : ℤ) + o) % (ncell : ℤ) = ((c : ℤ) + o') % (ncell : ℤ) := by
      omega
    have hsub : ((c : ℤ) + o - ((c : ℤ) + o')) % (ncell : ℤ) = 0 := by
      rw [Int.sub_emod, heq, sub_self, Int.zero_emod]
    have hdvd : (ncell : ℤ) ∣ o - o' := by
      have := Int.dvd_of_emod_eq_zero hsub
      have harith : (c : ℤ) + o - ((c : ℤ) + o') = o - o' := by ring
      rwa [harith] at this
    have hzero : o - o' = 0 := by
      apply Int.eq_zero_of_abs_lt_dvd hdvd
      have hb : |o - o'| ≤ 2 := by
        rw [abs_le]
        omega
      have h3 : (3 : ℤ) ≤ (ncell : ℤ) := by exact_mod_cast hn
      omega
    omega
  | false =>
    rw [if_neg (by simp)] at h h'
    by_cases hin : 0 ≤ (c : ℤ) + o ∧ (c : ℤ) + o < (ncell : ℤ)
    · rw [if_pos hin] at h
      by_cases hin' : 0 ≤ (c : ℤ) + o' ∧ (c : ℤ) + o' < (ncell : ℤ)
      · rw [if_pos hin'] at h'
        have e1 : ((c : ℤ) + o).toNat = d := Option.some_inj.mp h
        have e2 : ((c : ℤ) + o').toNat = d := Option.some_inj.mp h'
        omega
      · rw [if_neg hin'] at h'
        exact absurd h' (by simp)
    · rw [if_neg hin] at h
      exact absurd h (by simp)

theorem bmm_neigh_cellshift_inv {per : Bool} {ncell c : ℕ} {o : ℤ} {d : ℕ}
    (hc : c < ncell) (h : bmm_neigh_cellshift per ncell c o = some d) :
    bmm_neigh_cellshift per ncell d (-o) = some c := by
  unfold bmm_neigh_cellshift at h ⊢
  cases per with
  | true =>
    rw [if_pos rfl] at h ⊢
    have hnz : (ncell : ℤ) ≠ 0 := by
      have : 0 < ncell := by omega
      exact_mod_cast Nat.pos_iff_ne_zero.mp this
    have h0 : (0 : ℤ) ≤ ((c : ℤ) + o) % (ncell : ℤ) := Int.emod_nonneg _ hnz
    have hd : (d : ℤ) = ((c : ℤ) + o) % (ncell : ℤ) := by
      have e1 : (((c : ℤ) + o) % (ncell : ℤ)).toNat = d := Option.some_inj.mp h
      omega
    congr 1
    have key : ((d : ℤ) + -o) % (ncell : ℤ) = (c : ℤ) := by
      rw [hd]
      conv_lhs => rw [Int.add_emod]
      rw [Int.emod_emod_of_dvd _ (dvd_refl _)]
      rw [← Int.add_emod]
      have harith : (c : ℤ) + o + -o = (c : ℤ) := by ring
      rw [harith, Int.emod_eq_of_lt (by omega) (by exact_mod_cast hc)]
    rw [key]
    omega
  | false =>
    rw [if_neg (by simp)] at h ⊢
    by_cases hin : 0 ≤ (c : ℤ) + o ∧ (c : ℤ) + o < (ncell : ℤ)
    · rw [if_pos hin] at h
      have hd : (d : ℤ) = (c : ℤ) + o := by
        have e1 : ((c : ℤ) + o).toNat = d := Option.some_inj.mp h
        omega
      rw [if_pos (by omega)]
      congr 1
      omega
    · rw [if_neg hin] at h
      exact absurd h (by simp)

/-- Trichotomy of small offsets with respect to the upper-half mask: a
nonzero offset with components in `[-1, 1]` lies in the mask exactly when
it is lexicographically positive, and then its negation does not. -/
theorem bmm_neigh_mask_cases (o : ℤ × ℤ) (h1 : o.1.natAbs ≤ 1)
    (h2 : o.2.natAbs ≤ 1) :
    o = (0, 0) ∨
      (o ∈ bmm_neigh_mask_upperh ∧ o ≠ (0, 0) ∧
        -o ∉ bmm_neigh_mask_upperh) ∨
      (o ∉ bmm_neigh_mask_upperh ∧ o ≠ (0, 0) ∧
        -o ∈ bmm_neigh_mask_upperh) := by
  rcases o with ⟨a, b⟩
  have ha : a = -1 ∨ a = 0 ∨ a = 1 := by omega
  have hb : b = -1 ∨ b = 0 ∨ b = 1 := by omega
  simp only [bmm_neigh_mask_upperh, List.mem_cons, List.not_mem_nil,
    or_false, Prod.mk.injEq, Prod.neg_mk, Prod.ext_iff, ne_eq]
  rcases ha with rfl | rfl | rfl <;> rcases hb with rfl | rfl | rfl <;> norm_num

theorem bmm_neigh_mask_mem_zero : ((0, 0) : ℤ × ℤ) ∈ bmm_neigh_mask_upperh := by
  simp [bmm_neigh_mask_upperh]

theorem bmm_neigh_mask_nodup : bmm_neigh_mask_upperh.Nodup := by
  decide

theorem bmm_neigh_mask_natAbs {o : ℤ × ℤ} (h : o ∈ bmm_neigh_mask_upperh) :
    o.1.natAbs ≤ 1 ∧ o.2.natAbs ≤ 1 := by
  simp only [bmm_neigh_mask_upperh, List.mem_cons, List.not_mem_nil,
    or_false] at h
  rcases h with rfl | rfl | rfl | rfl | rfl <;> norm_num

theorem bmm_unhcd_pair (a b n1 n2 : ℕ) :
    bmm_unhcd [a, b] [n1, n2] = a * n2 + b := by
  simp [bmm_unhcd]

theorem bmm_unhcd_pair_inj {a b a' b' n2 : ℕ} (hb : b < n2) (hb' : b' < n2)
    (h : a * n2 + b = a' * n2 + b') : a = a' ∧ b = b' := by
  have hpos : 0 < n2 := by omega
  have h1 : (a * n2 + b) % n2 = b := by
    rw [Nat.add_comm, Nat.add_mul_mod_self_right, Nat.mod_eq_of_lt hb]
  have h2 : (a' * n2 + b') % n2 = b' := by
    rw [Nat.add_comm, Nat.add_mul_mod_self_right, Nat.mod_eq_of_lt hb']
  have hbb : b = b' := by rw [← h1, h, h2]
  have haa : a = a' := by
    have hmul : a * n2 = a' * n2 := by omega
    exact Nat.eq_of_mul_eq_mul_right hpos hmul
  exact ⟨haa, hbb⟩

theorem count_filter_general {α} [DecidableEq α] (l : List α) (p : α → Bool)
    (a : α) :
    (l.filter p).count a = if p a = true then l.count a else 0 := by
  by_cases h : p a = true
  · rw [if_pos h]
    exact List.count_filter h
  · rw [if_neg h]
    rw [List.count_eq_zero]
    intro hmem
    exact h (List.of_mem_filter hmem)

theorem count_range (n j : ℕ) :
    (List.range n).count j = if j < n then 1 else 0 := by
  by_cases h : j < n
  · rw [if_pos h]
    exact List.count_eq_one_of_mem (List.nodup_range n) (List.mem_range.mpr h)
  · rw [if_neg h]
    rw [List.count_eq_zero]
    intro hmem
    exact h (List.mem_range.mp hmem)

theorem count_flatMap_sum (l : List ℕ) (f : ℕ → List ℕ) (a : ℕ) :
    ((l.flatMap f).count a) = (l.map fun c => (f c).count a).sum := by
  induction l with
  | nil => rfl
  | cons c l ih =>
    rw [List.flatMap_cons, List.count_append, List.map_cons, List.sum_cons, ih]

theorem sum_map_ite_eq_count (l : List ℕ) (a : ℕ) :
    (l.map fun c => if a = c then 1 else 0).sum = l.count a := by
  induction l with
  | nil => rfl
  | cons c l ih =>
    rw [List.map_cons, List.sum_cons, ih, List.count_cons]
    by_cases h : a = c
    · subst h
      simp
      omega
    · rw [if_neg h, if_neg (by simp [beq_iff_eq]; exact Ne.symm h)]
      omega

theorem filter_length_one_of_unique {α} (l : List α) (p : α → Bool) (a : α)
    (hnd : l.Nodup) (ha : a ∈ l) (hpa : p a = true)
    (huniq : ∀ b ∈ l, p b = true → b = a) : (l.filter p).length = 1 := by
  induction l with
  | nil => cases ha
  | cons c l ih =>
    rw [List.nodup_cons] at hnd
    rcases List.mem_cons.mp ha with rfl | hal
    · rw [List.filter_cons_of_pos hpa]
      have hnil : l.filter p = [] := by
        rw [List.filter_eq_nil_iff]
        intro b hb hpb
        exact hnd.1 (huniq b (List.mem_cons_of_mem _ hb) hpb ▸ hb)
      rw [hnil]
      rfl
    · have hca : c ≠ a := fun hh => hnd.1 (hh ▸ hal)
      have hpc : ¬ p c = true := fun hh =>
        hca (huniq c (List.mem_cons_self c l) hh)
      rw [List.filter_cons_of_neg (by simpa using hpc)]
      exact ih hnd.2 hal fun b hb hpb =>
        huniq b (List.mem_cons_of_mem _ hb) hpb

theorem filter_length_zero_of_none {α} (l : List α) (p : α → Bool)
    (hnone : ∀ b ∈ l, p b = false) : (l.filter p).length = 0 := by
  rw [List.length_eq_zero, List.filter_eq_nil_iff]
  intro b hb
  rw [hnone b hb]
  simp

theorem bmm_neigh_cells_count_eq (per : Bool × Bool) (ncell : ℕ × ℕ)
    (cij : ℕ × ℕ) (z : ℕ) :
    (bmm_neigh_cells per ncell cij).count z =
      (bmm_neigh_mask_upperh.filter
        (fun o => bmm_neigh_resolve per ncell cij o == some z)).length := by
  unfold bmm_neigh_cells
  rw [List.count_filterMap, List.countP_eq_length_filter]

theorem bmm_neigh_resolve_elim {per : Bool × Bool} {ncell : ℕ × ℕ}
    {cij : ℕ × ℕ} {o : ℤ × ℤ} {z : ℕ}
    (h : bmm_neigh_resolve per ncell cij o = some z) :
    ∃ c1 c2, bmm_neigh_cellshift per.1 ncell.1 cij.1 o.1 = some c1 ∧
      bmm_neigh_cellshift per.2 ncell.2 cij.2 o.2 = some c2 ∧
      z = c1 * ncell.2 + c2 := by
  unfold bmm_neigh_resolve at h
  rcases hs1 : bmm_neigh_cellshift per.1 ncell.1 cij.1 o.1 with _ | c1 <;>
    rcases hs2 : bmm_neigh_cellshift per.2 ncell.2 cij.2 o.2 with _ | c2 <;>
    rw [hs1, hs2] at h <;> simp only [reduceCtorEq] at h
  · refine ⟨c1, c2, rfl, rfl, ?_⟩
    rw [bmm_unhcd_pair] at h
    exact (Option.some_inj.mp h).symm

theorem bmm_neigh_resolve_intro {per : Bool × Bool} {ncell : ℕ × ℕ}
    {cij : ℕ × ℕ} {o : ℤ × ℤ} {c1 c2 : ℕ}
    (h1 : bmm_neigh_cellshift per.1 ncell.1 cij.1 o.1 = some c1)
    (h2 : bmm_neigh_cellshift per.2 ncell.2 cij.2 o.2 = some c2) :
    bmm_neigh_resolve per ncell cij o = some (c1 * ncell.2 + c2) := by
  unfold bmm_neigh_resolve
  rw [h1, h2]
  dsimp only
  rw [bmm_unhcd_pair]

theorem bmm_dem_cache_ijcell_dim_lt (boxx : ℚ) (ncell : ℕ) (xc : ℚ)
    (h : 0 < ncell) : bmm_dem_cache_ijcell_dim boxx ncell xc < ncell := by
  unfold bmm_dem_cache_ijcell_dim
  dsimp only
  by_cases h1 : bmm_fp_lerp xc 0 boxx 1 ((ncell - 1 : ℕ) : ℚ) < 1
  · rw [if_pos h1]
    exact h
  · rw [if_neg h1]
    by_cases h2 : ((ncell - 1 : ℕ) : ℚ) ≤
        bmm_fp_lerp xc 0 boxx 1 ((ncell - 1 : ℕ) : ℚ)
    · rw [if_pos h2]
      omega
    · rw [if_neg h2]
      push_neg at h2
      have hfl : ⌊bmm_fp_lerp xc 0 boxx 1 ((ncell - 1 : ℕ) : ℚ)⌋ <
          ((ncell - 1 : ℕ) : ℤ) := by
        rw [Int.floor_lt]
        push_cast
        exact_mod_cast h2
      omega

/-! ### Characterization of the build passes -/

theorem bmm_dem_cache_build_parts_char (NGROUP : ℕ) (l : List ℕ) :
    ∀ s t : BmmDem,
      l.foldlM (bmm_dem_cache_addpart NGROUP) s = some t →
      t.opts = s.opts ∧ t.part = s.part ∧ t.link = s.link ∧
      t.cache.stale = s.cache.stale ∧ t.cache.j = s.cache.j ∧
      t.cache.x = s.cache.x ∧ t.cache.ijcell = s.cache.ijcell ∧
      t.cache.icell = s.cache.icell ∧ t.cache.neigh = s.cache.neigh ∧
      ∀ c, t.cache.part c =
        s.cache.part c ++ l.filter (fun p => s.cache.icell p = c) := by
  induction l with
  | nil =>
    intro s t h
    rw [List.foldlM_nil] at h
    have ht : s = t := Option.some_inj.mp h
    subst ht
    refine ⟨rfl, rfl, rfl, rfl, rfl, rfl, rfl, rfl, rfl, fun c => ?_⟩
    rw [List.filter_nil, List.append_nil]
  | cons p l ih =>
    intro s t h
    rw [List.foldlM_cons] at h
    rcases hstep : bmm_dem_cache_addpart NGROUP s p with _ | s1
    · rw [hstep] at h
      exact absurd h (by simp)
    · rw [hstep] at h
      replace h : List.foldlM (bmm_dem_cache_addpart NGROUP) s1 l = some t := h
      obtain ⟨h1, h2, h3, h4, h5, h6, h7, h8, h9, h10⟩ := ih s1 t h
      unfold bmm_dem_cache_addpart at hstep
      by_cases hcap : NGROUP ≤ (s.cache.part (s.cache.icell p)).length
      · rw [if_pos hcap] at hstep
        exact absurd hstep (by simp)
      · rw [if_neg hcap] at hstep
        have hs1 : s1 = { s with cache := { s.cache with
            part := Function.update s.cache.part (s.cache.icell p)
              (s.cache.part (s.cache.icell p) ++ [p]) } } :=
          (Option.some_inj.mp hstep).symm
        subst hs1
        dsimp only at h1 h2 h3 h4 h5 h6 h7 h8 h9 h10
        refine ⟨h1, h2, h3, h4, h5, h6, h7, h8, h9, fun c => ?_⟩
        rw [h10 c]
        by_cases hc : s.cache.icell p = c
        · rw [List.filter_cons_of_pos (by simpa using hc), ← hc,
            Function.update_same, List.append_assoc]
          rfl
        · rw [List.filter_cons_of_neg (by simpa using hc),
            Function.update_noteq (fun hne => hc hne.symm)]

theorem bmm_dem_cache_addfrom_fold_char (cap ipart : ℕ) (l : List ℕ) :
    ∀ s t : BmmDem,
      l.foldlM (fun s jpart =>
        if bmm_dem_cache_eligible s ipart jpart then
          if cap ≤ (s.cache.neigh ipart).length then none
          else some { s with cache := { s.cache with
            neigh := Function.update s.cache.neigh ipart
              (s.cache.neigh ipart ++ [jpart]) } }
        else some s) s = some t →
      t.opts = s.opts ∧ t.part = s.part ∧ t.link = s.link ∧
      t.cache.stale = s.cache.stale ∧ t.cache.j = s.cache.j ∧
      t.cache.x = s.cache.x ∧ t.cache.ijcell = s.cache.ijcell ∧
      t.cache.icell = s.cache.icell ∧ t.cache.part = s.cache.part ∧
      t.cache.neigh = Function.update s.cache.neigh ipart
        (s.cache.neigh ipart ++
          l.filter (fun j => bmm_dem_cache_eligible s ipart j)) := by
  induction l with
  | nil =>
    intro s t h
    rw [List.foldlM_nil] at h
    have ht : s = t := Option.some_inj.mp h
    subst ht
    refine ⟨rfl, rfl, rfl, rfl, rfl, rfl, rfl, rfl, rfl, ?_⟩
    rw [List.filter_nil, List.append_nil, Function.update_eq_self]
  | cons j l ih =>
    intro s t h
    rw [List.foldlM_cons] at h
    by_cases helig : bmm_dem_cache_eligible s ipart j = true
    · rw [if_pos helig] at h
      by_cases hcap : cap ≤ (s.cache.neigh ipart).length
      · rw [if_pos hcap] at h
        exact absurd h (by simp)
      · rw [if_neg hcap] at h
        replace h : List.foldlM (fun s jpart =>
            if bmm_dem_cache_eligible s ipart jpart then
              if cap ≤ (s.cache.neigh ipart).length then none
              else some { s with cache := { s.cache with
                neigh := Function.update s.cache.neigh ipart
                  (s.cache.neigh ipart ++ [jpart]) } }
            else some s)
            { s with cache := { s.cache with
              neigh := Function.update s.cache.neigh ipart
                (s.cache.neigh ipart ++ [j]) } } l = some t := h
        obtain ⟨h1, h2, h3, h4, h5, h6, h7, h8, h9, h10⟩ := ih _ t h
        dsimp only at h1 h2 h3 h4 h5 h6 h7 h8 h9 h10
        have hcong : bmm_dem_cache_eligible { s with cache := { s.cache with
            neigh := Function.update s.cache.neigh ipart
              (s.cache.neigh ipart ++ [j]) } } = bmm_dem_cache_eligible s :=
          bmm_dem_cache_eligible_congr _ _ rfl rfl rfl
        rw [hcong] at h10
        refine ⟨h1, h2, h3, h4, h5, h6, h7, h8, h9, ?_⟩
        rw [h10, Function.update_same, Function.update_idem,
          List.filter_cons_of_pos helig, List.append_assoc,
          List.singleton_append]
    · rw [if_neg helig] at h
      replace h : List.foldlM (fun s jpart =>
          if bmm_dem_cache_eligible s ipart jpart then
            if cap ≤ (s.cache.neigh ipart).length then none
            else some { s with cache := { s.cache with
              neigh := Function.update s.cache.neigh ipart
                (s.cache.neigh ipart ++ [jpart]) } }
          else some s) s l = some t := h
      obtain ⟨h1, h2, h3, h4, h5, h6, h7, h8, h9, h10⟩ := ih s t h
      refine ⟨h1, h2, h3, h4, h5, h6, h7, h8, h9, ?_⟩
      rw [h10, List.filter_cons_of_neg (by simpa using helig)]

theorem bmm_dem_cache_addfrom_char (NGROUP : ℕ) (s t : BmmDem) (ipart : ℕ)
    (h : bmm_dem_cache_addfrom NGROUP s ipart = some t) :
    t.opts = s.opts ∧ t.part = s.part ∧ t.link = s.link ∧
    t.cache.stale = s.cache.stale ∧ t.cache.j = s.cache.j ∧
    t.cache.x = s.cache.x ∧ t.cache.ijcell = s.cache.ijcell ∧
    t.cache.icell = s.cache.icell ∧ t.cache.part = s.cache.part ∧
    t.cache.neigh = Function.update s.cache.neigh ipart
      (s.cache.neigh ipart ++
        ((bmm_neigh_cells s.opts.box_per s.opts.cache_ncell
            (s.cache.ijcell ipart)).flatMap s.cache.part).filter
          (fun j => bmm_dem_cache_eligible s ipart j)) := by
  unfold bmm_dem_cache_addfrom at h
  exact bmm_dem_cache_addfrom_fold_char (NGROUP * 4) ipart _ s t h

theorem bmm_dem_cache_build_neighs_char (NGROUP : ℕ) (l : List ℕ)
    (hnd : l.Nodup) :
    ∀ s t : BmmDem,
      l.foldlM (bmm_dem_cache_addfrom NGROUP) s = some t →
      t.opts = s.opts ∧ t.part = s.part ∧ t.link = s.link ∧
      t.cache.stale = s.cache.stale ∧ t.cache.j = s.cache.j ∧
      t.cache.x = s.cache.x ∧ t.cache.ijcell = s.cache.ijcell ∧
      t.cache.icell = s.cache.icell ∧ t.cache.part = s.cache.part ∧
      (∀ q, q ∉ l → t.cache.neigh q = s.cache.neigh q) ∧
      ∀ p ∈ l, t.cache.neigh p = s.cache.neigh p ++
        ((bmm_neigh_cells s.opts.box_per s.opts.cache_ncell
            (s.cache.ijcell p)).flatMap s.cache.part).filter
          (fun j => bmm_dem_cache_eligible s p j) := by
  induction l with
  | nil =>
    intro s t h
    rw [List.foldlM_nil] at h
    have ht : s = t := Option.some_inj.mp h
    subst ht
    exact ⟨rfl, rfl, rfl, rfl, rfl, rfl, rfl, rfl, rfl,
      fun q _ => rfl, fun p hp => absurd hp (List.not_mem_nil p)⟩
  | cons p l ih =>
    intro s t h
    rw [List.nodup_cons] at hnd
    rw [List.foldlM_cons] at h
    rcases hstep : bmm_dem_cache_addfrom NGROUP s p with _ | s1
    · rw [hstep] at h
      exact absurd h (by simp)
    · rw [hstep] at h
      replace h : List.foldlM (bmm_dem_cache_addfrom NGROUP) s1 l = some t := h
      obtain ⟨g1, g2, g3, g4, g5, g6, g7, g8, g9, g10⟩ :=
        bmm_dem_cache_addfrom_char NGROUP s s1 p hstep
      obtain ⟨h1, h2, h3, h4, h5, h6, h7, h8, h9, h10, h11⟩ := ih hnd.2 s1 t h
      refine ⟨h1.trans g1, h2.trans g2, h3.trans g3, h4.trans g4,
        h5.trans g5, h6.trans g6, h7.trans g7, h8.trans g8, h9.trans g9,
        ?_, ?_⟩
      · intro q hq
        have hq1 : q ∉ l := fun hh => hq (List.mem_cons_of_mem _ hh)
        have hq2 : q ≠ p := fun hh => hq (by rw [hh]; exact List.mem_cons_self p l)
        rw [h10 q hq1, g10, Function.update_noteq hq2]
      · intro p' hp'
        have hcong : bmm_dem_cache_eligible s1 = bmm_dem_cache_eligible s :=
          bmm_dem_cache_eligible_congr s1 s g8 g6 g1
        rcases List.mem_cons.mp hp' with rfl | hpl
        · rw [h10 p' hnd.1, g10, Function.update_same]
        · rw [h11 p' hpl, g10, Function.update_noteq
            (fun hh => hnd.1 (by rw [← hh]; exact hpl)), g1, g7, g9, hcong]

theorem bmm_dem_cache_build_prefix_char (dem S5 : BmmDem)
    (hS5 : S5 = bmm_dem_cache_clrparts (bmm_dem_cache_build_icell
      (bmm_dem_cache_build_ijcell (bmm_dem_cache_build_x
        (bmm_dem_cache_build_j dem))))) :
    S5.part = dem.part ∧ S5.opts = dem.opts ∧ S5.link = dem.link ∧
    S5.cache.stale = dem.cache.stale ∧ S5.cache.neigh = dem.cache.neigh ∧
    (∀ c, S5.cache.part c = []) ∧
    (∀ p, p < dem.part.n → S5.cache.x p = dem.part.x p) ∧
    (∀ p, p < dem.part.n → S5.cache.ijcell p =
      (bmm_dem_cache_ijcell_dim dem.opts.box_x.1 dem.opts.cache_ncell.1
        (dem.part.x p).1,
       bmm_dem_cache_ijcell_dim dem.opts.box_x.2 dem.opts.cache_ncell.2
        (dem.part.x p).2)) ∧
    (∀ p, p < dem.part.n → S5.cache.icell p =
      (S5.cache.ijcell p).1 * dem.opts.cache_ncell.2 +
        (S5.cache.ijcell p).2) := by
  subst hS5
  unfold bmm_dem_cache_clrparts bmm_dem_cache_build_icell
    bmm_dem_cache_build_ijcell bmm_dem_cache_build_x bmm_dem_cache_build_j
    bmm_dem_cache_ijcell_vec
  dsimp only
  refine ⟨rfl, rfl, rfl, rfl, rfl, fun c => rfl, fun p hp => ?_,
    fun p hp => ?_, fun p hp => ?_⟩
  · rw [if_pos hp]
  · rw [if_pos hp, if_pos hp]
  · rw [if_pos hp, if_pos hp, bmm_unhcd_pair]

theorem bmm_dem_cache_build_char (NGROUP : ℕ) (dem t : BmmDem)
    (h : bmm_dem_cache_build NGROUP dem = some t) :
    t.part = dem.part ∧ t.opts = dem.opts ∧ t.link = dem.link ∧
    (∀ p, p < dem.part.n → t.cache.x p = dem.part.x p) ∧
    (∀ p, p < dem.part.n → t.cache.ijcell p =
      (bmm_dem_cache_ijcell_dim dem.opts.box_x.1 dem.opts.cache_ncell.1
        (dem.part.x p).1,
       bmm_dem_cache_ijcell_dim dem.opts.box_x.2 dem.opts.cache_ncell.2
        (dem.part.x p).2)) ∧
    (∀ p, p < dem.part.n → t.cache.icell p =
      (t.cache.ijcell p).1 * dem.opts.cache_ncell.2 +
        (t.cache.ijcell p).2) ∧
    (∀ c, t.cache.part c = (List.range dem.part.n).filter
      (fun p => t.cache.icell p = c)) ∧
    (∀ p, p < dem.part.n → t.cache.neigh p =
      ((bmm_neigh_cells dem.opts.box_per dem.opts.cache_ncell
          (t.cache.ijcell p)).flatMap t.cache.part).filter
        (fun j => bmm_dem_cache_eligible t p j)) := by
  obtain ⟨p1, p2, p3, p4, p5, p6, p7, p8, p9⟩ :=
    bmm_dem_cache_build_prefix_char dem _ rfl
  unfold bmm_dem_cache_build at h
  dsimp only at h
  rcases hp : List.foldlM (bmm_dem_cache_addpart NGROUP)
      (bmm_dem_cache_clrparts (bmm_dem_cache_build_icell
        (bmm_dem_cache_build_ijcell (bmm_dem_cache_build_x
          (bmm_dem_cache_build_j dem)))))
      (List.range (bmm_dem_cache_clrparts (bmm_dem_cache_build_icell
        (bmm_dem_cache_build_ijcell (bmm_dem_cache_build_x
          (bmm_dem_cache_build_j dem))))).part.n)
    with _ | s6
  · rw [hp] at h
    exact absurd h (by simp)
  · rw [hp] at h
    rcases hq : List.foldlM (bmm_dem_cache_addfrom NGROUP)
        (bmm_dem_cache_clrneighs s6)
        (List.range (bmm_dem_cache_clrneighs s6).part.n) with _ | s7
    · rw [Option.some_bind, hq] at h
      exact absurd h (by simp)
    · rw [Option.some_bind, hq, Option.map_some'] at h
      have ht : t = { s7 with cache := { s7.cache with stale := false } } :=
        (Option.some_inj.mp h).symm
      obtain ⟨q1, q2, q3, q4, q5, q6, q7, q8, q9, q10⟩ :=
        bmm_dem_cache_build_parts_char NGROUP _ _ s6 hp
      have hn5 : (bmm_dem_cache_clrparts (bmm_dem_cache_build_icell
          (bmm_dem_cache_build_ijcell (bmm_dem_cache_build_x
            (bmm_dem_cache_build_j dem))))).part.n = dem.part.n := by
        rw [p1]
      have hn6 : (bmm_dem_cache_clrneighs s6).part.n = dem.part.n := by
        show s6.part.n = dem.part.n
        rw [q2, p1]
      obtain ⟨r1, r2, r3, r4, r5, r6, r7, r8, r9, r10, r11⟩ :=
        bmm_dem_cache_build_neighs_char NGROUP _
          (List.nodup_range _) _ s7 hq
      -- field bridges from the clrneighs step
      have c1 : (bmm_dem_cache_clrneighs s6).opts = s6.opts := rfl
      have c2 : (bmm_dem_cache_clrneighs s6).part = s6.part := rfl
      have c3 : (bmm_dem_cache_clrneighs s6).link = s6.link := rfl
      have c4 : (bmm_dem_cache_clrneighs s6).cache.x = s6.cache.x := rfl
      have c5 : (bmm_dem_cache_clrneighs s6).cache.ijcell = s6.cache.ijcell :=
        rfl
      have c6 : (bmm_dem_cache_clrneighs s6).cache.icell = s6.cache.icell :=
        rfl
      have c7 : (bmm_dem_cache_clrneighs s6).cache.part = s6.cache.part := rfl
      subst ht
      refine ⟨?_, ?_, ?_, ?_, ?_, ?_, ?_, ?_⟩
      · show s7.part = dem.part
        rw [r2, c2, q2, p1]
      · show s7.opts = dem.opts
        rw [r1, c1, q1, p2]
      · show s7.link = dem.link
        rw [r3, c3, q3, p3]
      · intro p hp'
        show s7.cache.x p = dem.part.x p
        rw [r6, c4, q6, p7 p hp']
      · intro p hp'
        show s7.cache.ijcell p = _
        rw [r7, c5, q7, p8 p hp']
      · intro p hp'
        show s7.cache.icell p =
          (s7.cache.ijcell p).1 * dem.opts.cache_ncell.2 +
            (s7.cache.ijcell p).2
        rw [r8, c6, q8, p9 p hp', r7, c5, q7]
      · intro c
        rw [hn5] at q10
        show s7.cache.part c = _
        rw [r9, c7, q10 c, p6 c, List.nil_append, r8, c6, q8]
      · intro p hp'
        rw [hn6] at r11
        have hneigh0 : (bmm_dem_cache_clrneighs s6).cache.neigh p = [] := by
          show (if p < s6.part.n then [] else s6.cache.neigh p) = []
          rw [if_pos (by rw [q2, p1]; exact hp')]
        have helig : bmm_dem_cache_eligible
            { s7 with cache := { s7.cache with stale := false } } =
            bmm_dem_cache_eligible (bmm_dem_cache_clrneighs s6) :=
          bmm_dem_cache_eligible_congr _ _ r8 r6 r1
        show s7.cache.neigh p = _
        rw [r11 p (List.mem_range.mpr hp'), hneigh0, List.nil_append]
        rw [c1, q1, p2, c5, q7, c7]
        have hij7 : s7.cache.ijcell = (bmm_dem_cache_clrparts
            (bmm_dem_cache_build_icell (bmm_dem_cache_build_ijcell
              (bmm_dem_cache_build_x
                (bmm_dem_cache_build_j dem))))).cache.ijcell := by
          rw [r7, c5, q7]
        have hpart7 : s7.cache.part = s6.cache.part := by
          rw [r9, c7]
        rw [← hij7, ← hpart7, ← helig]

theorem bmm_dem_cache_build_count_char (NGROUP : ℕ) (dem t : BmmDem)
    (h : bmm_dem_cache_build NGROUP dem = some t) (a b : ℕ)
    (ha : a < dem.part.n) (hb : b < dem.part.n) :
    (t.cache.neigh a).count b =
      if bmm_dem_cache_eligible t a b = true then
        (bmm_neigh_cells dem.opts.box_per dem.opts.cache_ncell
          (t.cache.ijcell a)).count (t.cache.icell b)
      else 0 := by
  obtain ⟨hpart, hopts, hlink, hx, hijc, hicell, hcpart, hneigh⟩ :=
    bmm_dem_cache_build_char NGROUP dem t h
  rw [hneigh a ha, count_filter_general]
  by_cases helig : bmm_dem_cache_eligible t a b = true
  · rw [if_pos helig, if_pos helig, count_flatMap_sum]
    have hmap : ∀ c : ℕ, (t.cache.part c).count b =
        if t.cache.icell b = c then 1 else 0 := by
      intro c
      rw [hcpart c, count_filter_general]
      by_cases hcc : t.cache.icell b = c
      · rw [if_pos (by simpa using hcc), if_pos hcc, count_range, if_pos hb]
      · rw [if_neg (by simpa using hcc), if_neg hcc]
    have hfun : (fun c => (t.cache.part c).count b) =
        (fun c => if t.cache.icell b = c then 1 else 0) := funext hmap
    rw [hfun, sum_map_ite_eq_count]
  · rw [if_neg helig, if_neg helig]

theorem list_flatMap_length_le (l : List ℕ) (f : ℕ → List ℕ) (k : ℕ)
    (h : ∀ c ∈ l, (f c).length ≤ k) :
    (l.flatMap f).length ≤ l.length * k := by
  induction l with
  | nil => simp
  | cons c l ih =>
    rw [List.flatMap_cons, List.length_append, List.length_cons,
      Nat.succ_mul]
    have h1 : (f c).length ≤ k := h c (List.mem_cons_self c l)
    have h2 : (l.flatMap f).length ≤ l.length * k :=
      ih fun c' hc' => h c' (List.mem_cons_of_mem _ hc')
    omega

theorem bmm_dem_cache_addpart_fold_isSome (NGROUP : ℕ) (l : List ℕ) :
    ∀ s : BmmDem,
      (∀ c, (s.cache.part c).length + l.length ≤ NGROUP) →
      ∃ t, l.foldlM (bmm_dem_cache_addpart NGROUP) s = some t := by
  induction l with
  | nil =>
    intro s h
    exact ⟨s, rfl⟩
  | cons p l ih =>
    intro s h
    have hcap : ¬ NGROUP ≤ (s.cache.part (s.cache.icell p)).length := by
      have hh := h (s.cache.icell p)
      rw [List.length_cons] at hh
      omega
    have hnext : ∀ c, ((Function.update s.cache.part (s.cache.icell p)
        (s.cache.part (s.cache.icell p) ++ [p])) c).length + l.length ≤
          NGROUP := by
      intro c
      by_cases hc : c = s.cache.icell p
      · subst hc
        rw [Function.update_same, List.length_append, List.length_singleton]
        have hh := h (s.cache.icell p)
        rw [List.length_cons] at hh
        omega
      · rw [Function.update_noteq hc]
        have hh := h c
        rw [List.length_cons] at hh
        omega
    obtain ⟨t, ht⟩ := ih { s with cache := { s.cache with
      part := Function.update s.cache.part (s.cache.icell p)
        (s.cache.part (s.cache.icell p) ++ [p]) } } hnext
    refine ⟨t, ?_⟩
    rw [List.foldlM_cons]
    unfold bmm_dem_cache_addpart
    dsimp only
    rw [if_neg hcap]
    exact ht

theorem bmm_dem_cache_addfrom_fold_isSome (cap ipart : ℕ) (l : List ℕ) :
    ∀ s : BmmDem,
      (s.cache.neigh ipart).length + l.length ≤ cap →
      ∃ t, l.foldlM (fun s jpart =>
        if bmm_dem_cache_eligible s ipart jpart then
          if cap ≤ (s.cache.neigh ipart).length then none
          else some { s with cache := { s.cache with
            neigh := Function.update s.cache.neigh ipart
              (s.cache.neigh ipart ++ [jpart]) } }
        else some s) s = some t := by
  induction l with
  | nil =>
    intro s h
    exact ⟨s, rfl⟩
  | cons j l ih =>
    intro s h
    rw [List.length_cons] at h
    by_cases helig : bmm_dem_cache_eligible s ipart j = true
    · have hcap : ¬ cap ≤ (s.cache.neigh ipart).length := by omega
      have hnext : ((Function.update s.cache.neigh ipart
          (s.cache.neigh ipart ++ [j])) ipart).length + l.length ≤ cap := by
        rw [Function.update_same, List.length_append, List.length_singleton]
        omega
      obtain ⟨t, ht⟩ := ih { s with cache := { s.cache with
        neigh := Function.update s.cache.neigh ipart
          (s.cache.neigh ipart ++ [j]) } } hnext
      refine ⟨t, ?_⟩
      rw [List.foldlM_cons]
      dsimp only
      rw [if_pos helig, if_neg hcap]
      exact ht
    · obtain ⟨t, ht⟩ := ih s (by omega)
      refine ⟨t, ?_⟩
      rw [List.foldlM_cons]
      dsimp only
      rw [if_neg helig]
      exact ht

theorem bmm_dem_cache_addfrom_isSome (NGROUP : ℕ) (s : BmmDem) (ipart : ℕ)
    (h : (s.cache.neigh ipart).length +
      ((bmm_neigh_cells s.opts.box_per s.opts.cache_ncell
        (s.cache.ijcell ipart)).flatMap s.cache.part).length ≤ NGROUP * 4) :
    ∃ t, bmm_dem_cache_addfrom NGROUP s ipart = some t := by
  unfold bmm_dem_cache_addfrom
  exact bmm_dem_cache_addfrom_fold_isSome (NGROUP * 4) ipart _ s h

theorem bmm_dem_cache_neighs_fold_isSome (NGROUP : ℕ) (l : List ℕ) :
    ∀ s : BmmDem, l.Nodup →
      (∀ p ∈ l, (s.cache.neigh p).length +
        ((bmm_neigh_cells s.opts.box_per s.opts.cache_ncell
          (s.cache.ijcell p)).flatMap s.cache.part).length ≤ NGROUP * 4) →
      ∃ t, l.foldlM (bmm_dem_cache_addfrom NGROUP) s = some t := by
  induction l with
  | nil =>
    intro s _ h
    exact ⟨s, rfl⟩
  | cons p l ih =>
    intro s hnd h
    rw [List.nodup_cons] at hnd
    obtain ⟨s1, hs1⟩ := bmm_dem_cache_addfrom_isSome NGROUP s p
      (h p (List.mem_cons_self p l))
    obtain ⟨g1, g2, g3, g4, g5, g6, g7, g8, g9, g10⟩ :=
      bmm_dem_cache_addfrom_char NGROUP s s1 p hs1
    have hnext : ∀ q ∈ l, (s1.cache.neigh q).length +
        ((bmm_neigh_cells s1.opts.box_per s1.opts.cache_ncell
          (s1.cache.ijcell q)).flatMap s1.cache.part).length ≤
            NGROUP * 4 := by
      intro q hq
      have hqp : q ≠ p := fun hh => hnd.1 (hh ▸ hq)
      rw [g1, g7, g9, g10, Function.update_noteq hqp]
      exact h q (List.mem_cons_of_mem _ hq)
    obtain ⟨t, ht⟩ := ih s1 hnd.2 hnext
    refine ⟨t, ?_⟩
    rw [List.foldlM_cons, hs1]
    exact ht

/-- `bmm_dem_cache_build` succeeds whenever the capacities cannot be hit:
at most `n` particles fall into any one cell, and the mask enumerates at
most `5` cells of at most `n` entries each for any one particle. -/
theorem bmm_dem_cache_build_isSome (NGROUP : ℕ) (dem : BmmDem)
    (h1 : dem.part.n ≤ NGROUP) (h2 : 5 * dem.part.n ≤ NGROUP * 4) :
    ∃ t, bmm_dem_cache_build NGROUP dem = some t := by
  unfold bmm_dem_cache_build
  dsimp only
  set S5 : BmmDem := bmm_dem_cache_clrparts (bmm_dem_cache_build_icell
    (bmm_dem_cache_build_ijcell (bmm_dem_cache_build_x
      (bmm_dem_cache_build_j dem)))) with hS5
  obtain ⟨p1, p2, p3, p4, p5, p6, p7, p8, p9⟩ :=
    bmm_dem_cache_build_prefix_char dem S5 hS5
  have hb1 : ∀ c, (S5.cache.part c).length +
      (List.range S5.part.n).length ≤ NGROUP := by
    intro c
    rw [p6 c, List.length_range, p1]
    simpa using h1
  obtain ⟨s6, hs6⟩ := bmm_dem_cache_addpart_fold_isSome NGROUP
    (List.range S5.part.n) S5 hb1
  obtain ⟨q1, q2, q3, q4, q5, q6, q7, q8, q9, q10⟩ :=
    bmm_dem_cache_build_parts_char NGROUP (List.range S5.part.n) S5 s6 hs6
  have hparts : ∀ c, (s6.cache.part c).length ≤ dem.part.n := by
    intro c
    rw [q10 c, p6 c, List.nil_append]
    refine le_trans (List.length_filter_le _ _) (le_of_eq ?_)
    rw [List.length_range, p1]
  have hb2 : ∀ p ∈ List.range (bmm_dem_cache_clrneighs s6).part.n,
      ((bmm_dem_cache_clrneighs s6).cache.neigh p).length +
        ((bmm_neigh_cells (bmm_dem_cache_clrneighs s6).opts.box_per
            (bmm_dem_cache_clrneighs s6).opts.cache_ncell
            ((bmm_dem_cache_clrneighs s6).cache.ijcell p)).flatMap
          (bmm_dem_cache_clrneighs s6).cache.part).length ≤ NGROUP * 4 := by
    intro p hp
    rw [List.mem_range] at hp
    have hp' : p < s6.part.n := hp
    unfold bmm_dem_cache_clrneighs
    dsimp only
    rw [if_pos hp', List.length_nil, Nat.zero_add]
    have hflat := list_flatMap_length_le (bmm_neigh_cells s6.opts.box_per
      s6.opts.cache_ncell (s6.cache.ijcell p)) s6.cache.part dem.part.n
      (fun c _ => hparts c)
    have hc5 : (bmm_neigh_cells s6.opts.box_per s6.opts.cache_ncell
        (s6.cache.ijcell p)).length ≤ 5 := by
      unfold bmm_neigh_cells
      exact List.length_filterMap_le _ _
    exact le_trans hflat
      (le_trans (Nat.mul_le_mul_right dem.part.n hc5) h2)
  obtain ⟨s7, hs7⟩ := bmm_dem_cache_neighs_fold_isSome NGROUP
    (List.range (bmm_dem_cache_clrneighs s6).part.n)
    (bmm_dem_cache_clrneighs s6) (List.nodup_range _) hb2
  refine ⟨{ s7 with cache := { s7.cache with stale := false } }, ?_⟩
  rw [hs6]
  have hfin : (((List.range (bmm_dem_cache_clrneighs s6).part.n).foldlM
      (bmm_dem_cache_addfrom NGROUP) (bmm_dem_cache_clrneighs s6)).map
      (fun s7 => { s7 with cache := { s7.cache with stale := false } })) =
      some { s7 with cache := { s7.cache with stale := false } } := by
    rw [hs7]
    rfl
  exact hfin

/-- Fixture for C1: unit non-periodic box, `ncell = (5, 5)`,
`rcutoff = 1/2` and two particles at `(9/10, 1/2)` and `(1/2, 1/2)` —
within the cutoff (distance `2/5`) and in the neighboring cells `(3, 2)`
and `(2, 2)`. -/
def demC1 : BmmDem :=
  { demZero with
    opts := { demZero.opts with cache_rcutoff := 1 / 2 }
    part := { demZero.part with
      n := 2
      x := fun p => if p = 0 then (9 / 10, 1 / 2) else (1 / 2, 1 / 2) } }

/-- The state rebuilt from `demC1` (the rebuild succeeds, so the `getD`
default is never taken). -/
def demC1built : BmmDem := (bmm_dem_cache_build 10 demC1).getD demZero

theorem demC1_build_eq : bmm_dem_cache_build 10 demC1 = some demC1built := by
  obtain ⟨t, ht⟩ := bmm_dem_cache_build_isSome 10 demC1 (by decide) (by decide)
  rw [ht]
  unfold demC1built
  rw [ht]
  rfl

theorem demC1built_cells :
    demC1built.cache.x 0 = ((9 : ℚ) / 10, (1 : ℚ) / 2) ∧
    demC1built.cache.x 1 = ((1 : ℚ) / 2, (1 : ℚ) / 2) ∧
    demC1built.cache.ijcell 0 = (3, 2) ∧
    demC1built.cache.ijcell 1 = (2, 2) ∧
    demC1built.cache.icell 0 = 17 ∧
    demC1built.cache.icell 1 = 12 := by
  obtain ⟨hpart, hopts, hlink, hx, hijc, hicell, hcpart, hneigh⟩ :=
    bmm_dem_cache_build_char 10 demC1 demC1built demC1_build_eq
  have h0n : (0 : ℕ) < demC1.part.n := by decide
  have h1n : (1 : ℕ) < demC1.part.n := by decide
  have hx0 : demC1built.cache.x 0 = ((9 : ℚ) / 10, (1 : ℚ) / 2) := by
    rw [hx 0 h0n]
    rfl
  have hx1 : demC1built.cache.x 1 = ((1 : ℚ) / 2, (1 : ℚ) / 2) := by
    rw [hx 1 h1n]
    rfl
  have hij0 : demC1built.cache.ijcell 0 = (3, 2) := by
    rw [hijc 0 h0n]
    norm_num [demC1, demZero, bmm_dem_cache_ijcell_dim, bmm_fp_lerp,
      Prod.ext_iff]
    decide
  have hij1 : demC1built.cache.ijcell 1 = (2, 2) := by
    rw [hijc 1 h1n]
    norm_num [demC1, demZero, bmm_dem_cache_ijcell_dim, bmm_fp_lerp,
      Prod.ext_iff]
    decide
  have hic0 : demC1built.cache.icell 0 = 17 := by
    rw [hicell 0 h0n, hij0]
    decide
  have hic1 : demC1built.cache.icell 1 = 12 := by
    rw [hicell 1 h1n, hij1]
    decide
  exact ⟨hx0, hx1, hij0, hij1, hic0, hic1⟩

theorem demC1built_dist :
    bmm_geom2d_cpdist2 (demC1built.cache.x 0) (demC1built.cache.x 1)
      demC1.opts.box_x demC1.opts.box_per ≤
        bmm_fp_sq demC1.opts.cache_rcutoff := by
  obtain ⟨hx0, hx1, _, _, _, _⟩ := demC1built_cells
  rw [hx0, hx1]
  norm_num [demC1, demZero, bmm_geom2d_cpdist2, bmm_geom2d_cpdiff,
    bmm_geom2d_norm2, bmm_fp_sq]

theorem demC1built_elig01 : bmm_dem_cache_eligible demC1built 0 1 = true := by
  obtain ⟨hx0, hx1, _, _, hic0, hic1⟩ := demC1built_cells
  obtain ⟨hpart, hopts, hlink, hx, hijc, hicell, hcpart, hneigh⟩ :=
    bmm_dem_cache_build_char 10 demC1 demC1built demC1_build_eq
  rw [bmm_dem_cache_eligible_iff]
  constructor
  · rintro ⟨hic, _⟩
    rw [hic0, hic1] at hic
    exact absurd hic (by decide)
  · rw [hopts, hx0, hx1]
    norm_num [demC1, demZero, bmm_geom2d_cpdist2, bmm_geom2d_cpdiff,
      bmm_geom2d_norm2, bmm_fp_sq]

theorem demC1built_elig10 : bmm_dem_cache_eligible demC1built 1 0 = true := by
  obtain ⟨hx0, hx1, _, _, hic0, hic1⟩ := demC1built_cells
  obtain ⟨hpart, hopts, hlink, hx, hijc, hicell, hcpart, hneigh⟩ :=
    bmm_dem_cache_build_char 10 demC1 demC1built demC1_build_eq
  rw [bmm_dem_cache_eligible_iff]
  constructor
  · rintro ⟨hic, _⟩
    rw [hic0, hic1] at hic
    exact absurd hic (by decide)
  · rw [hopts, hx0, hx1]
    norm_num [demC1, demZero, bmm_geom2d_cpdist2, bmm_geom2d_cpdiff,
      bmm_geom2d_norm2, bmm_fp_sq]

/-- Counterexample to C1 as stated: after the successful rebuild of the
fixture `demC1`, the pair `(0, 1)` has `0 < 1` and cached squared distance
`(2/5)² ≤ (1/2)²`, yet `1` does not appear in `neigh[0]` at all — the pair
is recorded in `neigh[1]` instead, because with the upper-half Moore mask
the orientation is decided by the lexicographic order of the two CELLS
(cell `(2, 2)` of particle `1` precedes cell `(3, 2)` of particle `0`),
not by the particle indices. -/
theorem claim_C1_counterexample :
    bmm_dem_cache_build 10 demC1 = some demC1built ∧
    bmm_geom2d_cpdist2 (demC1built.cache.x 0) (demC1built.cache.x 1)
        demC1.opts.box_x demC1.opts.box_per ≤
      bmm_fp_sq demC1.opts.cache_rcutoff ∧
    (demC1built.cache.neigh 0).count 1 = 0 ∧
    (demC1built.cache.neigh 1).count 0 = 1 := by
  obtain ⟨hx0, hx1, hij0, hij1, hic0, hic1⟩ := demC1built_cells
  have h0n : (0 : ℕ) < demC1.part.n := by decide
  have h1n : (1 : ℕ) < demC1.part.n := by decide
  refine ⟨demC1_build_eq, demC1built_dist, ?_, ?_⟩
  · rw [bmm_dem_cache_build_count_char 10 demC1 demC1built demC1_build_eq
      0 1 h0n h1n, if_pos demC1built_elig01, hij0, hic1]
    decide
  · rw [bmm_dem_cache_build_count_char 10 demC1 demC1built demC1_build_eq
      1 0 h1n h0n, if_pos demC1built_elig10, hij1, hic0]
    decide

theorem bmm_neigh_cellshift_zero (per : Bool) {ncell c : ℕ} (hc : c < ncell) :
    bmm_neigh_cellshift per ncell c 0 = some c := by
  unfold bmm_neigh_cellshift
  cases per with
  | true =>
    rw [if_pos rfl]
    congr 1
    rw [add_zero, Int.emod_eq_of_lt (by omega) (by exact_mod_cast hc)]
    omega
  | false =>
    rw [if_neg (by simp)]
    rw [if_pos (by constructor <;> omega)]
    congr 1

/-- C1 (amended): after a successful cache rebuild with `ncell[d] ≥ 3`, a
pair `(i, j)` with `i < j`, cached squared distance at most `rcutoff²` AND
cell vectors that are one Moore step apart (periodically) appears exactly
once across all neighbor lists — counted over both `neigh[i]` and
`neigh[j]`, since which of the two lists holds the pair depends on the
lexicographic order of the two cells, not on the particle indices. -/
theorem claim_C1_pair_once (NGROUP : ℕ) (dem t : BmmDem)
    (hbuild : bmm_dem_cache_build NGROUP dem = some t)
    (hn1 : 3 ≤ dem.opts.cache_ncell.1) (hn2 : 3 ≤ dem.opts.cache_ncell.2)
    (i j : ℕ) (hij : i < j) (hjn : j < dem.part.n)
    (hdist : bmm_geom2d_cpdist2 (t.cache.x i) (t.cache.x j)
        dem.opts.box_x dem.opts.box_per ≤ bmm_fp_sq dem.opts.cache_rcutoff)
    (hadj : ∃ o : ℤ × ℤ, o.1.natAbs ≤ 1 ∧ o.2.natAbs ≤ 1 ∧
      bmm_neigh_cellshift dem.opts.box_per.1 dem.opts.cache_ncell.1
        (t.cache.ijcell i).1 o.1 = some (t.cache.ijcell j).1 ∧
      bmm_neigh_cellshift dem.opts.box_per.2 dem.opts.cache_ncell.2
        (t.cache.ijcell i).2 o.2 = some (t.cache.ijcell j).2) :
    (t.cache.neigh i).count j + (t.cache.neigh j).count i = 1 := by
  obtain ⟨hpart, hopts, hlink, hx, hijc, hicell, hcpart, hneigh⟩ :=
    bmm_dem_cache_build_char NGROUP dem t hbuild
  have hin : i < dem.part.n := lt_trans hij hjn
  have hrange : ∀ p, p < dem.part.n →
      (t.cache.ijcell p).1 < dem.opts.cache_ncell.1 ∧
      (t.cache.ijcell p).2 < dem.opts.cache_ncell.2 := by
    intro p hp
    rw [hijc p hp]
    exact ⟨bmm_dem_cache_ijcell_dim_lt _ _ _ (by omega),
      bmm_dem_cache_ijcell_dim_lt _ _ _ (by omega)⟩
  have hicell_iff : ∀ p q, p < dem.part.n → q < dem.part.n →
      (t.cache.icell p = t.cache.icell q ↔
        t.cache.ijcell p = t.cache.ijcell q) := by
    intro p q hp hq
    constructor
    · intro h
      rw [hicell p hp, hicell q hq] at h
      obtain ⟨ha, hb⟩ := bmm_unhcd_pair_inj (hrange p hp).2 (hrange q hq).2 h
      exact Prod.ext ha hb
    · intro h
      rw [hicell p hp, hicell q hq, h]
  have hresolve_iff : ∀ a b : ℕ, a < dem.part.n → b < dem.part.n →
      ∀ o' : ℤ × ℤ,
      (bmm_neigh_resolve dem.opts.box_per dem.opts.cache_ncell
          (t.cache.ijcell a) o' = some (t.cache.icell b) ↔
        bmm_neigh_cellshift dem.opts.box_per.1 dem.opts.cache_ncell.1
            (t.cache.ijcell a).1 o'.1 = some (t.cache.ijcell b).1 ∧
          bmm_neigh_cellshift dem.opts.box_per.2 dem.opts.cache_ncell.2
            (t.cache.ijcell a).2 o'.2 = some (t.cache.ijcell b).2) := by
    intro a b ha hb o'
    constructor
    · intro h
      obtain ⟨c1, c2, hc1, hc2, hz⟩ := bmm_neigh_resolve_elim h
      rw [hicell b hb] at hz
      obtain ⟨he1, he2⟩ := bmm_unhcd_pair_inj (hrange b hb).2
        (bmm_neigh_cellshift_lt (by omega) hc2) hz
      rw [← he1] at hc1
      rw [← he2] at hc2
      exact ⟨hc1, hc2⟩
    · rintro ⟨h1, h2⟩
      rw [bmm_neigh_resolve_intro h1 h2, hicell b hb]
  have hcount : ∀ a b : ℕ, a < dem.part.n → b < dem.part.n →
      (t.cache.neigh a).count b =
        if bmm_dem_cache_eligible t a b = true then
          (bmm_neigh_cells dem.opts.box_per dem.opts.cache_ncell
            (t.cache.ijcell a)).count (t.cache.icell b)
        else 0 :=
    fun a b ha hb =>
      bmm_dem_cache_build_count_char NGROUP dem t hbuild a b ha hb
  have hcellcount : ∀ a b : ℕ,
      (bmm_neigh_cells dem.opts.box_per dem.opts.cache_ncell
        (t.cache.ijcell a)).count (t.cache.icell b) =
      (bmm_neigh_mask_upperh.filter
        (fun o => bmm_neigh_resolve dem.opts.box_per dem.opts.cache_ncell
          (t.cache.ijcell a) o == some (t.cache.icell b))).length :=
    fun a b => bmm_neigh_cells_count_eq _ _ _ _
  obtain ⟨o, ho1, ho2, hs1, hs2⟩ := hadj
  -- the pair is within the cutoff, in both orientations
  have hd1 : bmm_geom2d_cpdist2 (t.cache.x i) (t.cache.x j)
      t.opts.box_x t.opts.box_per ≤ bmm_fp_sq t.opts.cache_rcutoff := by
    rw [hopts]
    exact hdist
  have hd2 : bmm_geom2d_cpdist2 (t.cache.x j) (t.cache.x i)
      t.opts.box_x t.opts.box_per ≤ bmm_fp_sq t.opts.cache_rcutoff := by
    rw [bmm_geom2d_cpdist2_symm]
    exact hd1
  by_cases hzero : o = (0, 0)
  · -- same cell: the pair is counted exactly once, in neigh[i]
    have ho1z : o.1 = 0 := by rw [hzero]
    have ho2z : o.2 = 0 := by rw [hzero]
    rw [ho1z] at hs1
    rw [ho2z] at hs2
    have hz1 : (t.cache.ijcell i).1 = (t.cache.ijcell j).1 :=
      Option.some_inj.mp ((bmm_neigh_cellshift_zero dem.opts.box_per.1
        (hrange i hin).1).symm.trans hs1)
    have hz2 : (t.cache.ijcell i).2 = (t.cache.ijcell j).2 :=
      Option.some_inj.mp ((bmm_neigh_cellshift_zero dem.opts.box_per.2
        (hrange i hin).2).symm.trans hs2)
    have hic : t.cache.icell i = t.cache.icell j :=
      (hicell_iff i j hin hjn).mpr (Prod.ext hz1 hz2)
    have heligij : bmm_dem_cache_eligible t i j = true :=
      (bmm_dem_cache_eligible_iff t i j).mpr
        ⟨fun hh => absurd hh.2 (by omega), hd1⟩
    have heligji : ¬ bmm_dem_cache_eligible t j i = true := by
      intro hel
      exact ((bmm_dem_cache_eligible_iff t j i).mp hel).1
        ⟨hic.symm, Nat.le_of_lt hij⟩
    rw [hcount i j hin hjn, hcount j i hjn hin, if_pos heligij,
      if_neg heligji, hcellcount i j]
    have hres1 : bmm_neigh_cellshift dem.opts.box_per.1 dem.opts.cache_ncell.1
        (t.cache.ijcell i).1 0 = some (t.cache.ijcell j).1 := by
      rw [← hz1]
      exact bmm_neigh_cellshift_zero dem.opts.box_per.1 (hrange i hin).1
    have hres2 : bmm_neigh_cellshift dem.opts.box_per.2 dem.opts.cache_ncell.2
        (t.cache.ijcell i).2 0 = some (t.cache.ijcell j).2 := by
      rw [← hz2]
      exact bmm_neigh_cellshift_zero dem.opts.box_per.2 (hrange i hin).2
    have hres0 : bmm_neigh_resolve dem.opts.box_per dem.opts.cache_ncell
        (t.cache.ijcell i) ((0, 0) : ℤ × ℤ) = some (t.cache.icell j) :=
      (hresolve_iff i j hin hjn ((0, 0) : ℤ × ℤ)).mpr ⟨hres1, hres2⟩
    have hlen1 : (bmm_neigh_mask_upperh.filter
        (fun w => bmm_neigh_resolve dem.opts.box_per dem.opts.cache_ncell
          (t.cache.ijcell i) w == some (t.cache.icell j))).length = 1 := by
      apply filter_length_one_of_unique _ _ ((0, 0) : ℤ × ℤ)
        bmm_neigh_mask_nodup bmm_neigh_mask_mem_zero
      · simp only [beq_iff_eq]
        exact hres0
      · intro w hw hpw
        simp only [beq_iff_eq] at hpw
        obtain ⟨hw1, hw2⟩ := (hresolve_iff i j hin hjn w).mp hpw
        have e1 : w.1 = 0 := bmm_neigh_cellshift_unique hn1
          (bmm_neigh_mask_natAbs hw).1 (by decide) hw1 hres1
        have e2 : w.2 = 0 := bmm_neigh_cellshift_unique hn2
          (bmm_neigh_mask_natAbs hw).2 (by decide) hw2 hres2
        exact Prod.ext e1 e2
    rw [hlen1]
  · -- distinct cells: exactly one of the two orientations is recorded
    have hvecne : ¬ t.cache.ijcell i = t.cache.ijcell j := by
      intro hv
      apply hzero
      have hs1' : bmm_neigh_cellshift dem.opts.box_per.1
          dem.opts.cache_ncell.1 (t.cache.ijcell i).1 o.1 =
            some (t.cache.ijcell i).1 := by
        rw [hs1, hv]
      have hs2' : bmm_neigh_cellshift dem.opts.box_per.2
          dem.opts.cache_ncell.2 (t.cache.ijcell i).2 o.2 =
            some (t.cache.ijcell i).2 := by
        rw [hs2, hv]
      have e1 : o.1 = 0 := bmm_neigh_cellshift_unique hn1 ho1 (by decide)
        hs1' (bmm_neigh_cellshift_zero dem.opts.box_per.1 (hrange i hin).1)
      have e2 : o.2 = 0 := bmm_neigh_cellshift_unique hn2 ho2 (by decide)
        hs2' (bmm_neigh_cellshift_zero dem.opts.box_per.2 (hrange i hin).2)
      exact Prod.ext e1 e2
    have hicne : ¬ t.cache.icell i = t.cache.icell j :=
      fun h => hvecne ((hicell_iff i j hin hjn).mp h)
    have heligij : bmm_dem_cache_eligible t i j = true :=
      (bmm_dem_cache_eligible_iff t i j).mpr ⟨fun hh => hicne hh.1, hd1⟩
    have heligji : bmm_dem_cache_eligible t j i = true :=
      (bmm_dem_cache_eligible_iff t j i).mpr
        ⟨fun hh => hicne hh.1.symm, hd2⟩
    rw [hcount i j hin hjn, hcount j i hjn hin, if_pos heligij,
      if_pos heligji, hcellcount i j, hcellcount j i]
    have hresO : bmm_neigh_resolve dem.opts.box_per dem.opts.cache_ncell
        (t.cache.ijcell i) o = some (t.cache.icell j) :=
      (hresolve_iff i j hin hjn o).mpr ⟨hs1, hs2⟩
    have hinv1 : bmm_neigh_cellshift dem.opts.box_per.1 dem.opts.cache_ncell.1
        (t.cache.ijcell j).1 (-o.1) = some (t.cache.ijcell i).1 :=
      bmm_neigh_cellshift_inv (hrange i hin).1 hs1
    have hinv2 : bmm_neigh_cellshift dem.opts.box_per.2 dem.opts.cache_ncell.2
        (t.cache.ijcell j).2 (-o.2) = some (t.cache.ijcell i).2 :=
      bmm_neigh_cellshift_inv (hrange i hin).2 hs2
    have hresN : bmm_neigh_resolve dem.opts.box_per dem.opts.cache_ncell
        (t.cache.ijcell j) (-o) = some (t.cache.icell i) :=
      (hresolve_iff j i hjn hin (-o)).mpr ⟨hinv1, hinv2⟩
    have hno1 : (-o.1).natAbs ≤ 1 := by rw [Int.natAbs_neg]; exact ho1
    have hno2 : (-o.2).natAbs ≤ 1 := by rw [Int.natAbs_neg]; exact ho2
    rcases bmm_neigh_mask_cases o ho1 ho2 with h00 | ⟨hmem, _, hnegmem⟩ |
      ⟨hmem, _, hnegmem⟩
    · exact absurd h00 hzero
    · -- lexicographically positive offset: the pair lives in neigh[i]
      have hlen1 : (bmm_neigh_mask_upperh.filter
          (fun w => bmm_neigh_resolve dem.opts.box_per dem.opts.cache_ncell
            (t.cache.ijcell i) w == some (t.cache.icell j))).length = 1 := by
        apply filter_length_one_of_unique _ _ o bmm_neigh_mask_nodup hmem
        · simp only [beq_iff_eq]
          exact hresO
        · intro w hw hpw
          simp only [beq_iff_eq] at hpw
          obtain ⟨hw1, hw2⟩ := (hresolve_iff i j hin hjn w).mp hpw
          have e1 : w.1 = o.1 := bmm_neigh_cellshift_unique hn1
            (bmm_neigh_mask_natAbs hw).1 ho1 hw1 hs1
          have e2 : w.2 = o.2 := bmm_neigh_cellshift_unique hn2
            (bmm_neigh_mask_natAbs hw).2 ho2 hw2 hs2
          exact Prod.ext e1 e2
      have hlen2 : (bmm_neigh_mask_upperh.filter
          (fun w => bmm_neigh_resolve dem.opts.box_per dem.opts.cache_ncell
            (t.cache.ijcell j) w == some (t.cache.icell i))).length = 0 := by
        apply filter_length_zero_of_none
        intro w hw
        rw [Bool.eq_false_iff]
        intro hpw
        simp only [beq_iff_eq] at hpw
        obtain ⟨hw1, hw2⟩ := (hresolve_iff j i hjn hin w).mp hpw
        have e1 : w.1 = -o.1 := bmm_neigh_cellshift_unique hn1
          (bmm_neigh_mask_natAbs hw).1 hno1 hw1 hinv1
        have e2 : w.2 = -o.2 := bmm_neigh_cellshift_unique hn2
          (bmm_neigh_mask_natAbs hw).2 hno2 hw2 hinv2
        apply hnegmem
        have hwo : w = -o := Prod.ext e1 e2
        rwa [hwo] at hw
      rw [hlen1, hlen2]
    · -- lexicographically negative offset: the pair lives in neigh[j]
      have hlen1 : (bmm_neigh_mask_upperh.filter
          (fun w => bmm_neigh_resolve dem.opts.box_per dem.opts.cache_ncell
            (t.cache.ijcell i) w == some (t.cache.icell j))).length = 0 := by
        apply filter_length_zero_of_none
        intro w hw
        rw [Bool.eq_false_iff]
        intro hpw
        simp only [beq_iff_eq] at hpw
        obtain ⟨hw1, hw2⟩ := (hresolve_iff i j hin hjn w).mp hpw
        have e1 : w.1 = o.1 := bmm_neigh_cellshift_unique hn1
          (bmm_neigh_mask_natAbs hw).1 ho1 hw1 hs1
        have e2 : w.2 = o.2 := bmm_neigh_cellshift_unique hn2
          (bmm_neigh_mask_natAbs hw).2 ho2 hw2 hs2
        apply hmem
        have hwo : w = o := Prod.ext e1 e2
        rwa [hwo] at hw
      have hlen2 : (bmm_neigh_mask_upperh.filter
          (fun w => bmm_neigh_resolve dem.opts.box_per dem.opts.cache_ncell
            (t.cache.ijcell j) w == some (t.cache.icell i))).length = 1 := by
        apply filter_length_one_of_unique _ _ (-o) bmm_neigh_mask_nodup
          hnegmem
        · simp only [beq_iff_eq]
          exact hresN
        · intro w hw hpw
          simp only [beq_iff_eq] at hpw
          obtain ⟨hw1, hw2⟩ := (hresolve_iff j i hjn hin w).mp hpw
          have e1 : w.1 = -o.1 := bmm_neigh_cellshift_unique hn1
            (bmm_neigh_mask_natAbs hw).1 hno1 hw1 hinv1
          have e2 : w.2 = -o.2 := bmm_neigh_cellshift_unique hn2
            (bmm_neigh_mask_natAbs hw).2 hno2 hw2 hinv2
          exact Prod.ext e1 e2
      rw [hlen1, hlen2]

/-- Witness for the amended C1: the theorem applied to the fixture
`demC1`, whose pair `(0, 1)` sits in the neighboring cells `(3, 2)` and
`(2, 2)` (offset `(-1, 0)`) at cached distance `2/5 ≤ 1/2`. -/
theorem claim_C1_witness :
    (demC1built.cache.neigh 0).count 1 +
      (demC1built.cache.neigh 1).count 0 = 1 := by
  apply claim_C1_pair_once 10 demC1 demC1built demC1_build_eq
    (by decide) (by decide) 0 1 (by decide) (by decide) demC1built_dist
  obtain ⟨hx0, hx1, hij0, hij1, hic0, hic1⟩ := demC1built_cells
  refine ⟨((-1 : ℤ), (0 : ℤ)), by decide, by decide, ?_, ?_⟩
  · rw [hij0, hij1]
    decide
  · rw [hij0, hij1]
    decide

end Bmm
